import Mathlib

/-!
Verification of the priority-ordered download pipeline of the
calibre-web-automated-book-downloader repository.

The development shallowly embeds the Go sources:
  internal/models/queue.go        (registry, priority queue, lifecycle)
  internal/downloader/downloader.go (fetcher: size parsing, filenames,
                                     single-URL download loop; the file holds
                                     several revisions and the final revision,
                                     the one exercised by the current tests, is
                                     embedded)
  the worker pool source            (worker dispatch loop)

Machine integers are modelled by Int and Nat, Go float64 by the rationals,
Go maps by association lists with unique keys, Go channels by allocation
indices together with a ghost list of close events, and the Go standard
library heap (container/heap) by the literal sift algorithms specialised to
the queue ordering.  Recursive loops carry an explicit fuel argument equal to
the bound the Go loop respects, so that every definition evaluates by kernel
reduction.
-/

namespace CWBD

/-- Lifecycle states of a request, from queue.go lines 12 to 19. -/
inductive QueueStatus where
  | queued
  | downloading
  | available
  | error
  | done
  | cancelled
deriving DecidableEq, Repr

/-- Heap entry, from the QueueItem struct of queue.go (the Index bookkeeping
field of the Go struct is positional and carries no information beyond the
position in the backing array, so it is omitted).  AddedTime is a logical
clock standing for time.Now at insertion. -/
structure QueueItem where
  bookID : String
  priority : Int
  addedTime : Nat
deriving DecidableEq, Repr

instance : Inhabited QueueItem := ⟨⟨"", 0, 0⟩⟩

/-- Ordering of PriorityQueue.Less, queue.go lines 63 to 70: lower priority
number first, ties broken by earlier added time. -/
def pqLess (a b : QueueItem) : Bool :=
  if a.priority ≠ b.priority then decide (a.priority < b.priority)
  else decide (a.addedTime < b.addedTime)

theorem pqLess_true_iff (a b : QueueItem) : pqLess a b = true ↔
    (a.priority < b.priority ∨
      (a.priority = b.priority ∧ a.addedTime < b.addedTime)) := by
  unfold pqLess
  by_cases hp : a.priority = b.priority <;> simp [hp] <;> omega

theorem pqLess_false_iff (a b : QueueItem) : pqLess a b = false ↔
    (b.priority < a.priority ∨
      (a.priority = b.priority ∧ b.addedTime ≤ a.addedTime)) := by
  unfold pqLess
  by_cases hp : a.priority = b.priority <;> simp [hp] <;> omega

theorem pqLess_irrefl (a : QueueItem) : pqLess a a = false := by
  simp [pqLess]

theorem pqLess_asymm {a b : QueueItem} (h : pqLess a b = true) :
    pqLess b a = false := by
  rw [pqLess_true_iff] at h
  rw [pqLess_false_iff]
  omega

theorem pqLess_not_trans {a b c : QueueItem}
    (hab : pqLess b a = false) (hbc : pqLess c b = false) :
    pqLess c a = false := by
  rw [pqLess_false_iff] at hab hbc
  rw [pqLess_false_iff]
  omega

/-- Record stored against an id in the bookData map; the fields of the
BookInfo struct of queue.go that the verified operations consult. -/
structure Book where
  title : String
  format : Option String
  size : Option String
  priority : Int
  progress : Option ℚ
  downloadPath : Option String
deriving DecidableEq, Repr

/-! Association lists with unique keys model the Go maps of the BookQueue
struct.  upsert replaces the binding of an existing key in place and appends
a fresh key; delk removes the first binding of a key. -/

/-- Insert or replace the binding of a key, keeping all other bindings. -/
def upsert {β : Type} (m : List (String × β)) (k : String) (v : β) :
    List (String × β) :=
  match m with
  | [] => [(k, v)]
  | (k', v') :: t => if k' = k then (k, v) :: t else (k', v') :: upsert t k v

/-- Remove the first binding of a key. -/
def delk {β : Type} (m : List (String × β)) (k : String) :
    List (String × β) :=
  match m with
  | [] => []
  | (k', v') :: t => if k' = k then t else (k', v') :: delk t k

/-- Lookup over a cons cell as a plain if. -/
theorem lookup_cons {β : Type} (a : String) (b : β) (t : List (String × β))
    (k : String) :
    List.lookup k ((a, b) :: t) = if k = a then some b else List.lookup k t := by
  by_cases h : k = a
  · simp [List.lookup, h]
  · have hb : (k == a) = false := by simpa using h
    simp [List.lookup, hb, h]

theorem lookup_upsert_self {β : Type} (m : List (String × β)) (k : String)
    (v : β) : List.lookup k (upsert m k v) = some v := by
  induction m with
  | nil => simp [upsert, lookup_cons]
  | cons p t ih =>
    obtain ⟨a, b⟩ := p
    by_cases h : a = k
    · simp [upsert, h, lookup_cons]
    · simp [upsert, h, lookup_cons, ih, Ne.symm h]

theorem lookup_upsert_ne {β : Type} (m : List (String × β)) (k k' : String)
    (v : β) (h : k' ≠ k) :
    List.lookup k' (upsert m k v) = List.lookup k' m := by
  induction m with
  | nil => simp [upsert, lookup_cons, h]
  | cons p t ih =>
    obtain ⟨a, b⟩ := p
    by_cases hp : a = k
    · subst hp
      simp [upsert, lookup_cons, h]
    · simp [upsert, hp, lookup_cons, ih]

theorem lookup_delk_ne {β : Type} (m : List (String × β)) (k k' : String)
    (h : k' ≠ k) : List.lookup k' (delk m k) = List.lookup k' m := by
  induction m with
  | nil => simp [delk]
  | cons p t ih =>
    obtain ⟨a, b⟩ := p
    by_cases hp : a = k
    · subst hp
      simp [delk, lookup_cons, h]
    · simp [delk, hp, lookup_cons, ih]

/-- Lookup of a present key splits the list around that binding. -/
theorem perm_delk_of_lookup {β : Type} {m : List (String × β)} {k : String}
    {v : β} (h : List.lookup k m = some v) :
    m.Perm ((k, v) :: delk m k) := by
  induction m with
  | nil => simp [List.lookup] at h
  | cons p t ih =>
    obtain ⟨a, b⟩ := p
    rw [lookup_cons] at h
    by_cases ha : k = a
    · subst ha
      have hb : b = v := by simpa using h
      subst hb
      simp [delk]
    · simp only [if_neg ha] at h
      have hne : a ≠ k := fun he => ha he.symm
      simp only [delk, if_neg hne]
      exact ((ih h).cons (a, b)).trans (List.Perm.swap (k, v) (a, b) (delk t k))

theorem mem_delk_subset {β : Type} {m : List (String × β)} {k : String}
    {p : String × β} (h : p ∈ delk m k) : p ∈ m := by
  induction m with
  | nil => simp [delk] at h
  | cons q t ih =>
    by_cases hq : q.1 = k
    · simp only [delk, hq, if_pos rfl] at h
      exact List.mem_cons_of_mem _ h
    · simp only [delk, hq, if_false] at h
      rcases List.mem_cons.mp h with h1 | h2
      · exact h1 ▸ List.mem_cons_self _ _
      · exact List.mem_cons_of_mem _ (ih h2)

theorem lookup_isSome_of_mem {β : Type} {m : List (String × β)}
    {p : String × β} (h : p ∈ m) : (List.lookup p.1 m).isSome = true := by
  induction m with
  | nil => simp at h
  | cons q t ih =>
    by_cases he : p.1 = q.1
    · have : (p.1 == q.1) = true := by simpa using he
      simp [List.lookup, this]
    · have hb : (p.1 == q.1) = false := by simpa using he
      rcases List.mem_cons.mp h with h1 | h2
      · exact absurd (congrArg Prod.fst h1) he
      · simp [List.lookup, hb, ih h2]

theorem lookup_eq_none_of_not_mem_keys {β : Type} {m : List (String × β)}
    {k : String} (h : k ∉ m.map Prod.fst) : List.lookup k m = none := by
  induction m with
  | nil => rfl
  | cons q t ih =>
    simp only [List.map_cons, List.mem_cons, not_or] at h
    have : (k == q.1) = false := by simpa using h.1
    simp [List.lookup, this, ih h.2]

/-- Every key after an upsert is the inserted key or an old key. -/
theorem mem_keys_upsert {β : Type} {m : List (String × β)} {k : String}
    {v : β} {x : String} (hx : x ∈ (upsert m k v).map Prod.fst) :
    x = k ∨ x ∈ m.map Prod.fst := by
  induction m with
  | nil => simpa [upsert] using hx
  | cons p t ih =>
    obtain ⟨a, b⟩ := p
    by_cases hp : a = k
    · subst hp
      have he : upsert ((a, b) :: t) a v = (a, v) :: t := by simp [upsert]
      rw [he, List.map_cons, List.mem_cons] at hx
      rcases hx with h1 | h1
      · exact Or.inl h1
      · exact Or.inr (List.mem_cons_of_mem _ h1)
    · have he : upsert ((a, b) :: t) k v = (a, b) :: upsert t k v := by
        simp [upsert, hp]
      rw [he, List.map_cons, List.mem_cons] at hx
      rcases hx with h1 | h1
      · exact Or.inr (h1 ▸ List.mem_cons_self _ _)
      · rcases ih h1 with h2 | h2
        · exact Or.inl h2
        · exact Or.inr (List.mem_cons_of_mem _ h2)

/-- Upsert preserves uniqueness of keys. -/
theorem keys_upsert_nodup {β : Type} {m : List (String × β)} (k : String)
    (v : β) (h : (m.map Prod.fst).Nodup) :
    ((upsert m k v).map Prod.fst).Nodup := by
  induction m with
  | nil => simp [upsert]
  | cons p t ih =>
    obtain ⟨a, b⟩ := p
    rw [List.map_cons, List.nodup_cons] at h
    by_cases hp : a = k
    · subst hp
      have he : upsert ((a, b) :: t) a v = (a, v) :: t := by simp [upsert]
      rw [he, List.map_cons, List.nodup_cons]
      exact ⟨h.1, h.2⟩
    · have he : upsert ((a, b) :: t) k v = (a, b) :: upsert t k v := by
        simp [upsert, hp]
      rw [he, List.map_cons, List.nodup_cons]
      refine ⟨fun hmem => ?_, ih h.2⟩
      rcases mem_keys_upsert hmem with h1 | h1
      · exact hp h1
      · exact h.1 h1

/-! The Go standard library package container/heap, specialised to the
PriorityQueue of queue.go.  The backing array is a list of QueueItem; qget
reads an index and lswap swaps two indices.  The sift loops of the Go
package (functions up and down) carry a fuel argument bounding the number
of iterations; fuel equal to the loop bound used at each call site is
always sufficient because the index moves strictly toward the bound. -/

/-- Read the entry at an index of the backing array. -/
def qget (q : List QueueItem) (i : Nat) : QueueItem :=
  q.getD i default

/-- Swap the entries at two indices of the backing array. -/
def lswap (q : List QueueItem) (i j : Nat) : List QueueItem :=
  (q.set i (qget q j)).set j (qget q i)

@[simp] theorem length_lswap (q : List QueueItem) (i j : Nat) :
    (lswap q i j).length = q.length := by
  simp [lswap]

theorem getElem?_lswap (q : List QueueItem) (i j k : Nat)
    (hi : i < q.length) (hj : j < q.length) :
    (lswap q i j)[k]? =
      if k = j then some (qget q i)
      else if k = i then some (qget q j) else q[k]? := by
  unfold lswap
  rw [List.getElem?_set, List.getElem?_set]
  rcases eq_or_ne j k with hjk | hjk
  · rw [if_pos hjk, if_pos (by simpa using hj), if_pos hjk.symm]
  · rw [if_neg hjk, if_neg (fun h : k = j => hjk h.symm)]
    rcases eq_or_ne i k with hik | hik
    · rw [if_pos hik, if_pos hi, if_pos hik.symm]
    · rw [if_neg hik, if_neg (fun h : k = i => hik h.symm)]

theorem qget_lswap (q : List QueueItem) (i j k : Nat)
    (hi : i < q.length) (hj : j < q.length) :
    qget (lswap q i j) k =
      if k = j then qget q i else if k = i then qget q j else qget q k := by
  rcases eq_or_ne k j with hkj | hkj
  · subst hkj
    simp [qget, List.getD_eq_getElem?_getD, getElem?_lswap q i k k hi hj]
  · rcases eq_or_ne k i with hki | hki
    · subst hki
      simp [qget, List.getD_eq_getElem?_getD, getElem?_lswap q k j k hi hj, hkj]
    · simp [qget, List.getD_eq_getElem?_getD, getElem?_lswap q i j k hi hj,
        hkj, hki]

theorem perm_lswap (q : List QueueItem) (i j : Nat)
    (hi : i < q.length) (hj : j < q.length) : (lswap q i j).Perm q := by
  rw [List.perm_iff_count]
  intro a
  have hq : ∀ m : Nat, ∀ hm : m < q.length, q[m] = qget q m := by
    intro m hm
    simp [qget, List.getD_eq_getElem?_getD, List.getElem?_eq_getElem hm]
  have hij : i < (q.set i (qget q j)).length := by simpa using hi
  have hjj : j < (q.set i (qget q j)).length := by simpa using hj
  have hgj : (q.set i (qget q j))[j] = qget q j := by
    rw [List.getElem_set]
    rcases eq_or_ne i j with he | he
    · rw [if_pos he]
    · rw [if_neg he, hq j hj]
  unfold lswap
  rw [List.count_set _ _ _ _ hjj, List.count_set _ _ _ _ hi, hgj, hq i hi]
  have hcnt1 : (qget q i == a) = true → 0 < List.count a q := by
    intro h
    have h' : qget q i = a := by simpa using h
    have hm : qget q i ∈ q := by
      rw [← hq i hi]
      exact List.getElem_mem hi
    exact List.count_pos_iff.mpr (h' ▸ hm)
  have hcnt2 : (qget q j == a) = true → 0 < List.count a q := by
    intro h
    have h' : qget q j = a := by simpa using h
    have hm : qget q j ∈ q := by
      rw [← hq j hj]
      exact List.getElem_mem hj
    exact List.count_pos_iff.mpr (h' ▸ hm)
  cases h1 : (qget q i == a) <;> cases h2 : (qget q j == a)
  · simp
  · simp
  · have hx := hcnt1 h1
    simp
    omega
  · have hx := hcnt1 h1
    simp
    omega

/-- Sift down of container/heap (function down), specialised: i is the hole,
n the size of the heap region.  Returns the final array together with the
final hole position.  Fuel at least n minus i lets the loop run to its
natural break. -/
def downAux (fuel : Nat) (q : List QueueItem) (i n : Nat) :
    List QueueItem × Nat :=
  match fuel with
  | 0 => (q, i)
  | fuel + 1 =>
    let j1 := 2 * i + 1
    if j1 < n then
      let j := if j1 + 1 < n ∧ pqLess (qget q (j1 + 1)) (qget q j1) then
        j1 + 1 else j1
      if pqLess (qget q j) (qget q i) then downAux fuel (lswap q i j) j n
      else (q, i)
    else (q, i)

/-- Sift up of container/heap (function up): j is the hole.  Fuel j is
always sufficient. -/
def upAux (fuel : Nat) (q : List QueueItem) (j : Nat) : List QueueItem :=
  match fuel with
  | 0 => q
  | fuel + 1 =>
    let i := (j - 1) / 2
    if i = j ∨ pqLess (qget q j) (qget q i) = false then q
    else upAux fuel (lswap q i j) i

/-- heap.Push: append the item and sift it up from the last position. -/
def heapPush (q : List QueueItem) (x : QueueItem) : List QueueItem :=
  upAux q.length (q ++ [x]) q.length

/-- heap.Pop: swap the root with the last entry, sift down over the shrunk
region, then remove and return the last entry (the old root). -/
def heapPop (q : List QueueItem) : QueueItem × List QueueItem :=
  let n := q.length - 1
  let q1 := lswap q 0 n
  let q2 := (downAux n q1 0 n).1
  (qget q2 n, q2.take n)

/-- Iterations of heap.Init: sift down at indices i - 1 down to 0. -/
def initFrom (q : List QueueItem) (i : Nat) : List QueueItem :=
  match i with
  | 0 => q
  | i + 1 => initFrom ((downAux q.length q i q.length).1) i

/-- heap.Init: bottom-up heapify over the whole array. -/
def heapInit (q : List QueueItem) : List QueueItem :=
  initFrom q (q.length / 2)

/-- heap.Fix: sift down at i, and if the entry did not move, sift up. -/
def heapFix (q : List QueueItem) (i : Nat) : List QueueItem :=
  let r := downAux q.length q i q.length
  if i < r.2 then r.1 else upAux i r.1 i

@[simp] theorem length_downAux (fuel : Nat) (q : List QueueItem) (i n : Nat) :
    (downAux fuel q i n).1.length = q.length := by
  induction fuel generalizing q i with
  | zero => rfl
  | succ fuel ih =>
    unfold downAux
    dsimp only
    split
    · split <;> split <;> first | (rw [ih]; simp) | rfl
    · rfl

@[simp] theorem length_upAux (fuel : Nat) (q : List QueueItem) (j : Nat) :
    (upAux fuel q j).length = q.length := by
  induction fuel generalizing q j with
  | zero => rfl
  | succ fuel ih =>
    unfold upAux
    dsimp only
    split
    · rfl
    · rw [ih]
      simp

@[simp] theorem length_heapPush (q : List QueueItem) (x : QueueItem) :
    (heapPush q x).length = q.length + 1 := by
  simp [heapPush]

@[simp] theorem length_initFrom (q : List QueueItem) (i : Nat) :
    (initFrom q i).length = q.length := by
  induction i generalizing q with
  | zero => rfl
  | succ i ih =>
    unfold initFrom
    rw [ih]
    simp

@[simp] theorem length_heapInit (q : List QueueItem) :
    (heapInit q).length = q.length := by
  simp [heapInit]

theorem perm_downAux : ∀ (fuel : Nat) (q : List QueueItem) (i n : Nat),
    n ≤ q.length → (downAux fuel q i n).1.Perm q := by
  intro fuel
  induction fuel with
  | zero => intro q i n hn; exact List.Perm.refl q
  | succ fuel ih =>
    intro q i n hn
    unfold downAux
    dsimp only
    split
    case isTrue hj1 =>
      split
      case isTrue hc =>
        split
        case isTrue hless =>
          have hb := hc.1
          have h1 := ih (lswap q i (2 * i + 1 + 1)) (2 * i + 1 + 1) n
            (by simpa using hn)
          exact h1.trans (perm_lswap q i _ (by omega) (by omega))
        case isFalse => exact List.Perm.refl q
      case isFalse hc =>
        split
        case isTrue hless =>
          have h1 := ih (lswap q i (2 * i + 1)) (2 * i + 1) n
            (by simpa using hn)
          exact h1.trans (perm_lswap q i _ (by omega) (by omega))
        case isFalse => exact List.Perm.refl q
    case isFalse => exact List.Perm.refl q

theorem perm_upAux (fuel : Nat) (q : List QueueItem) (j : Nat)
    (hjq : j < q.length) : (upAux fuel q j).Perm q := by
  induction fuel generalizing q j with
  | zero => exact List.Perm.refl q
  | succ fuel ih =>
    unfold upAux
    dsimp only
    split
    case isTrue => exact List.Perm.refl q
    case isFalse h =>
      have hij : ¬ ((j - 1) / 2 = j) := fun he => h (Or.inl he)
      have hlt : (j - 1) / 2 < q.length := by omega
      have h1 : (upAux fuel (lswap q ((j - 1) / 2) j) ((j - 1) / 2)).Perm
          (lswap q ((j - 1) / 2) j) := by
        apply ih
        simpa using hlt
      exact h1.trans (perm_lswap q _ _ hlt hjq)

theorem perm_heapPush (q : List QueueItem) (x : QueueItem) :
    (heapPush q x).Perm (x :: q) := by
  unfold heapPush
  have h1 : (upAux q.length (q ++ [x]) q.length).Perm (q ++ [x]) := by
    apply perm_upAux
    simp
  exact h1.trans (List.perm_append_singleton x q)

theorem perm_initFrom (q : List QueueItem) (i : Nat) :
    (initFrom q i).Perm q := by
  induction i generalizing q with
  | zero => exact List.Perm.refl q
  | succ i ih =>
    unfold initFrom
    exact (ih _).trans (perm_downAux _ _ _ _ (Nat.le_refl _))

theorem perm_heapInit (q : List QueueItem) : (heapInit q).Perm q :=
  perm_initFrom q _

/-! Correctness of the sift algorithms.  HeapFromN q n start states the
min-heap edge condition for every edge of the region of size n whose parent
index is at least start; heapProp is the full invariant maintained by
container/heap. -/

/-- Heap edges of the region of size n whose parent is at least start are
ordered (child not less than parent). -/
def HeapFromN (q : List QueueItem) (n start : Nat) : Prop :=
  ∀ c, c < n → 0 < c → start ≤ (c - 1) / 2 →
    pqLess (qget q c) (qget q ((c - 1) / 2)) = false

/-- The min-heap invariant of the whole backing array. -/
def heapProp (q : List QueueItem) : Prop := HeapFromN q q.length 0

instance (q : List QueueItem) (n start : Nat) : Decidable (HeapFromN q n start) :=
  inferInstanceAs (Decidable (∀ c, c < n → 0 < c → start ≤ (c - 1) / 2 →
    pqLess (qget q c) (qget q ((c - 1) / 2)) = false))

instance (q : List QueueItem) : Decidable (heapProp q) :=
  inferInstanceAs (Decidable (HeapFromN q q.length 0))

/-- Invariant of the sift-down loop: all edges of the region are ordered
except possibly those below the hole, and the children of the hole fit
below the parent of the hole once the hole has moved. -/
structure SiftState (q : List QueueItem) (n start hole : Nat) : Prop where
  lower : start ≤ hole
  bounded : hole < n
  nle : n ≤ q.length
  heap : ∀ c, c < n → 0 < c → start ≤ (c - 1) / 2 → (c - 1) / 2 ≠ hole →
    pqLess (qget q c) (qget q ((c - 1) / 2)) = false
  upper : start < hole → ∀ c, c < n → 0 < c → (c - 1) / 2 = hole →
    pqLess (qget q c) (qget q ((hole - 1) / 2)) = false

/-- The chosen index j is a child of the hole inside the region that no
sibling is strictly below. -/
def IsMinChild (q : List QueueItem) (n hole j : Nat) : Prop :=
  0 < j ∧ j < n ∧ (j - 1) / 2 = hole ∧
  ∀ c, c < n → 0 < c → (c - 1) / 2 = hole →
    pqLess (qget q c) (qget q j) = false

theorem minChild_choice (q : List QueueItem) (n hole : Nat)
    (h1 : 2 * hole + 1 < n) :
    IsMinChild q n hole
      (if 2 * hole + 1 + 1 < n ∧
          pqLess (qget q (2 * hole + 1 + 1)) (qget q (2 * hole + 1)) then
        2 * hole + 1 + 1 else 2 * hole + 1) := by
  split
  case isTrue hc =>
    refine ⟨by omega, hc.1, by omega, ?_⟩
    intro c hcn hc0 hpar
    have : c = 2 * hole + 1 ∨ c = 2 * hole + 2 := by omega
    rcases this with h | h
    · subst h
      exact pqLess_asymm hc.2
    · subst h
      exact pqLess_irrefl _
  case isFalse hc =>
    refine ⟨by omega, h1, by omega, ?_⟩
    intro c hcn hc0 hpar
    have : c = 2 * hole + 1 ∨ c = 2 * hole + 2 := by omega
    rcases this with h | h
    · subst h
      exact pqLess_irrefl _
    · subst h
      have : ¬ pqLess (qget q (2 * hole + 1 + 1)) (qget q (2 * hole + 1)) = true := by
        intro hp
        exact hc ⟨by omega, hp⟩
      simpa using this

theorem heapFrom_of_dominates {q : List QueueItem} {n start hole : Nat}
    (st : SiftState q n start hole)
    (hdom : ∀ c, c < n → 0 < c → (c - 1) / 2 = hole →
      pqLess (qget q c) (qget q hole) = false) : HeapFromN q n start := by
  intro c hc hc0 hstart
  by_cases hp : (c - 1) / 2 = hole
  · rw [hp]
    exact hdom c hc hc0 hp
  · exact st.heap c hc hc0 hstart hp

theorem heapFrom_of_minChild {q : List QueueItem} {n start hole j : Nat}
    (st : SiftState q n start hole) (hmc : IsMinChild q n hole j)
    (hdom : pqLess (qget q j) (qget q hole) = false) : HeapFromN q n start := by
  apply heapFrom_of_dominates st
  intro c hc hc0 hpar
  exact pqLess_not_trans hdom (hmc.2.2.2 c hc hc0 hpar)

theorem siftState_initial {q : List QueueItem} {n start : Nat}
    (hb : start < n) (hn : n ≤ q.length)
    (hheap : HeapFromN q n (start + 1)) : SiftState q n start start := by
  refine ⟨Nat.le_refl _, hb, hn, ?_, ?_⟩
  · intro c hc hc0 hs hne
    exact hheap c hc hc0 (by omega)
  · intro h
    omega

theorem siftState_swap {q : List QueueItem} {n start hole j : Nat}
    (st : SiftState q n start hole) (hmc : IsMinChild q n hole j)
    (hless : pqLess (qget q j) (qget q hole) = true) :
    SiftState (lswap q hole j) n start j := by
  obtain ⟨hj0, hjn, hjpar, hdom⟩ := hmc
  have hholen := st.bounded
  have hnle := st.nle
  have hlow := st.lower
  have hhq : hole < q.length := by omega
  have hjq : j < q.length := by omega
  have hhj : hole < j := by omega
  have vj : qget (lswap q hole j) j = qget q hole := by
    rw [qget_lswap q hole j j hhq hjq, if_pos rfl]
  have vh : qget (lswap q hole j) hole = qget q j := by
    rw [qget_lswap q hole j hole hhq hjq, if_neg (by omega), if_pos rfl]
  have vk : ∀ k, k ≠ j → k ≠ hole → qget (lswap q hole j) k = qget q k := by
    intro k h1 h2
    rw [qget_lswap q hole j k hhq hjq, if_neg h1, if_neg h2]
  refine ⟨by omega, hjn, by simpa using hnle, ?_, ?_⟩
  · intro c hc hc0 hs hne
    by_cases hcj : c = j
    · subst hcj
      rw [hjpar] at hne ⊢
      rw [vj, vh]
      exact pqLess_asymm hless
    · by_cases hch : c = hole
      · have hc0' : 0 < hole := hch ▸ hc0
        have hplt : (hole - 1) / 2 < hole := by omega
        rw [hch] at hs ⊢
        rw [vh, vk ((hole - 1) / 2) (by omega) (by omega)]
        exact st.upper (by omega) j hjn hj0 hjpar
      · rw [vk c hcj hch]
        by_cases hph : (c - 1) / 2 = hole
        · rw [hph, vh]
          exact hdom c hc hc0 hph
        · rw [vk ((c - 1) / 2) hne hph]
          exact st.heap c hc hc0 hs hph
  · intro _ c hc hc0 hcp
    have hcgt : j < c := by omega
    rw [vk c (by omega) (by omega), hjpar, vh]
    have h1 := st.heap c hc hc0 (by omega) (by omega)
    rwa [hcp] at h1

theorem downAux_heapFrom : ∀ (fuel : Nat) (q : List QueueItem)
    (start hole n : Nat), n - hole ≤ fuel → SiftState q n start hole →
    HeapFromN (downAux fuel q hole n).1 n start := by
  intro fuel
  induction fuel with
  | zero =>
    intro q start hole n hf st
    exact absurd st.bounded (by omega)
  | succ fuel ih =>
    intro q start hole n hf st
    unfold downAux
    dsimp only
    split
    case isTrue hj1 =>
      have hmc := minChild_choice q n hole hj1
      split
      case isTrue hc =>
        rw [if_pos hc] at hmc
        split
        case isTrue hless =>
          apply ih
          · omega
          · exact siftState_swap st hmc hless
        case isFalse hless =>
          exact heapFrom_of_minChild st hmc (by simpa using hless)
      case isFalse hc =>
        rw [if_neg hc] at hmc
        split
        case isTrue hless =>
          apply ih
          · omega
          · exact siftState_swap st hmc hless
        case isFalse hless =>
          exact heapFrom_of_minChild st hmc (by simpa using hless)
    case isFalse hj1 =>
      apply heapFrom_of_dominates st
      intro c hc hc0 hpar
      omega

theorem heapFrom_root_min {q : List QueueItem} {n : Nat}
    (hheap : HeapFromN q n 0) :
    ∀ k, k < n → pqLess (qget q k) (qget q 0) = false := by
  intro k
  induction k using Nat.strong_induction_on with
  | _ k ih =>
    intro hk
    rcases Nat.eq_zero_or_pos k with h0 | h0
    · subst h0
      exact pqLess_irrefl _
    · have hpar : (k - 1) / 2 < k := by omega
      have h1 := hheap k hk h0 (Nat.zero_le _)
      have h2 := ih ((k - 1) / 2) hpar (by omega)
      exact pqLess_not_trans h2 h1

theorem initFrom_heapFrom : ∀ (i : Nat) (q : List QueueItem),
    i ≤ q.length / 2 → HeapFromN q q.length i → heapProp (initFrom q i) := by
  intro i
  induction i with
  | zero =>
    intro q _ h
    exact h
  | succ i ih =>
    intro q hle hheap
    unfold initFrom
    have hilt : i < q.length := by omega
    have hstate : SiftState q q.length i i :=
      siftState_initial hilt (Nat.le_refl _) (fun c hc hc0 hs => hheap c hc hc0 (by omega))
    have hdown := downAux_heapFrom q.length q i i q.length (by omega) hstate
    have hlen : (downAux q.length q i q.length).1.length = q.length :=
      length_downAux _ _ _ _
    apply ih
    · rw [hlen]
      omega
    · rw [hlen]
      exact hdown

/-- heap.Init establishes the heap invariant from any array. -/
theorem heapInit_heapProp (q : List QueueItem) : heapProp (heapInit q) := by
  apply initFrom_heapFrom
  · exact Nat.le_refl _
  · intro c hc hc0 hs
    exact absurd hs (by omega)

theorem downAux_qget_ge : ∀ (fuel : Nat) (q : List QueueItem) (i n k : Nat),
    n ≤ q.length → n ≤ k → qget (downAux fuel q i n).1 k = qget q k := by
  intro fuel
  induction fuel with
  | zero => intro q i n k _ _; rfl
  | succ fuel ih =>
    intro q i n k hn hk
    unfold downAux
    dsimp only
    split
    case isTrue hj1 =>
      have hin : i < n := by omega
      split
      case isTrue hc =>
        split
        case isTrue hless =>
          rw [ih _ _ _ _ (by simpa using hn) hk]
          rw [qget_lswap q i (2 * i + 1 + 1) k (by omega) (by omega),
            if_neg (by omega), if_neg (by omega)]
        case isFalse => rfl
      case isFalse hc =>
        split
        case isTrue hless =>
          rw [ih _ _ _ _ (by simpa using hn) hk]
          rw [qget_lswap q i (2 * i + 1) k (by omega) (by omega),
            if_neg (by omega), if_neg (by omega)]
        case isFalse => rfl
    case isFalse => rfl

theorem qget_take {q : List QueueItem} {n k : Nat} (hk : k < n) :
    qget (q.take n) k = qget q k := by
  unfold qget
  rw [List.getD_eq_getElem?_getD, List.getD_eq_getElem?_getD,
    List.getElem?_take, if_pos hk]

theorem list_take_concat (l : List QueueItem) (n : Nat)
    (hl : l.length = n + 1) : l = l.take n ++ [qget l n] := by
  have hn : n < l.length := by omega
  have h1 : l.drop n = l[n] :: l.drop (n + 1) := List.drop_eq_getElem_cons hn
  have h2 : l.drop (n + 1) = [] := List.drop_eq_nil_of_le (by omega)
  have h3 : qget l n = l[n] := by
    simp [qget, List.getD_eq_getElem?_getD, List.getElem?_eq_getElem hn]
  calc l = l.take n ++ l.drop n := (List.take_append_drop n l).symm
    _ = l.take n ++ [qget l n] := by rw [h1, h2, h3]

/-- Correctness of heap.Pop on a nonempty heap: it returns the root, which
the heap invariant makes minimal, and leaves a heap over the remaining
entries. -/
theorem heapPop_spec (q : List QueueItem) (h0 : 0 < q.length)
    (hh : heapProp q) :
    (heapPop q).1 = qget q 0 ∧
    heapProp (heapPop q).2 ∧
    ((heapPop q).1 :: (heapPop q).2).Perm q ∧
    (heapPop q).2.length = q.length - 1 := by
  have hn : q.length - 1 < q.length := by omega
  have hq1len : (lswap q 0 (q.length - 1)).length = q.length := by simp
  have hq2len : ((downAux (q.length - 1) (lswap q 0 (q.length - 1)) 0
      (q.length - 1)).1).length = q.length := by
    rw [length_downAux, hq1len]
  have hvaln : qget ((downAux (q.length - 1) (lswap q 0 (q.length - 1)) 0
      (q.length - 1)).1) (q.length - 1) = qget q 0 := by
    rw [downAux_qget_ge _ _ _ _ _ (by omega) (Nat.le_refl _)]
    rw [qget_lswap q 0 (q.length - 1) (q.length - 1) h0 hn, if_pos rfl]
  have hheap2 : HeapFromN ((downAux (q.length - 1) (lswap q 0 (q.length - 1)) 0
      (q.length - 1)).1) (q.length - 1) 0 := by
    rcases Nat.eq_zero_or_pos (q.length - 1) with hz | hpos
    · rw [hz]
      intro c hc
      omega
    · apply downAux_heapFrom _ _ _ _ _ (by omega)
      refine ⟨Nat.le_refl _, hpos, by omega, ?_, ?_⟩
      · intro c hc hc0 hs hne
        have hc1 : c < q.length := by omega
        have hp1 : (c - 1) / 2 < c := by omega
        rw [qget_lswap q 0 (q.length - 1) c h0 hn, if_neg (by omega),
          if_neg (by omega)]
        rw [qget_lswap q 0 (q.length - 1) ((c - 1) / 2) h0 hn,
          if_neg (by omega), if_neg (by omega)]
        exact hh c (by omega) hc0 (Nat.zero_le _)
      · intro h
        omega
  refine ⟨hvaln, ?_, ?_, ?_⟩
  · have hlen2 : ((downAux (q.length - 1) (lswap q 0 (q.length - 1)) 0
        (q.length - 1)).1.take (q.length - 1)).length = q.length - 1 := by
      rw [List.length_take, hq2len]
      omega
    have hp2 : heapProp ((downAux (q.length - 1) (lswap q 0 (q.length - 1)) 0
        (q.length - 1)).1.take (q.length - 1)) := by
      intro c hc hc0 hs
      rw [hlen2] at hc
      rw [qget_take hc, qget_take (show (c - 1) / 2 < q.length - 1 by omega)]
      exact hheap2 c hc hc0 hs
    exact hp2
  · have hperm1 : ((downAux (q.length - 1) (lswap q 0 (q.length - 1)) 0
        (q.length - 1)).1).Perm q := by
      refine (perm_downAux _ _ _ _ (by omega)).trans ?_
      exact perm_lswap q 0 (q.length - 1) h0 hn
    have heq : (downAux (q.length - 1) (lswap q 0 (q.length - 1)) 0
        (q.length - 1)).1 =
        (downAux (q.length - 1) (lswap q 0 (q.length - 1)) 0
          (q.length - 1)).1.take (q.length - 1) ++
        [qget ((downAux (q.length - 1) (lswap q 0 (q.length - 1)) 0
          (q.length - 1)).1) (q.length - 1)] := by
      apply list_take_concat
      omega
    show ((qget ((downAux (q.length - 1) (lswap q 0 (q.length - 1)) 0
        (q.length - 1)).1) (q.length - 1)) ::
        (downAux (q.length - 1) (lswap q 0 (q.length - 1)) 0
          (q.length - 1)).1.take (q.length - 1)).Perm q
    refine List.Perm.trans ?_ hperm1
    refine List.Perm.trans ((List.perm_append_singleton _ _).symm) ?_
    rw [← heq]
  · show ((downAux (q.length - 1) (lswap q 0 (q.length - 1)) 0
      (q.length - 1)).1.take (q.length - 1)).length = q.length - 1
    rw [List.length_take, hq2len]
    omega

/-! The BookQueue registry of queue.go.  Go channels are modelled by their
allocation index: nextChan is the allocation counter and closed the ghost
list of close events, so that one close event is recorded each time the Go
code executes close(ch).  The clock field stands for time.Now and advances
at every Add. -/

/-- State of the BookQueue struct, queue.go lines 96 to 105, with the ghost
channel instrumentation. -/
structure BQ where
  queue : List QueueItem
  status : List (String × QueueStatus)
  bookData : List (String × Book)
  timestamps : List (String × Nat)
  cancelFlags : List (String × Nat)
  activeDownloads : List String
  closed : List Nat
  nextChan : Nat
  clock : Nat
deriving DecidableEq, Repr

/-- The empty registry produced by NewBookQueue. -/
def BQ.init : BQ := ⟨[], [], [], [], [], [], [], 0, 0⟩

/-- Internal updateStatus, queue.go lines 176 to 179: status plus timestamp. -/
def updateStatusInternal (s : BQ) (id : String) (st : QueueStatus) : BQ :=
  { s with status := upsert s.status id st,
           timestamps := upsert s.timestamps id s.clock }

/-- Statuses on which UpdateStatus clears the active flag and closes the
cancel channel, queue.go line 189. -/
def isFinished (st : QueueStatus) : Bool :=
  st = QueueStatus.available ∨ st = QueueStatus.error ∨
  st = QueueStatus.done ∨ st = QueueStatus.cancelled

/-- Statuses past which Add re-admits an id, queue.go line 130, and which
ClearCompleted removes, queue.go line 374. -/
def isReplaceable (st : QueueStatus) : Bool :=
  st = QueueStatus.error ∨ st = QueueStatus.done ∨ st = QueueStatus.cancelled

/-- UpdateStatus, queue.go lines 182 to 196. -/
def updateStatus (s : BQ) (id : String) (st : QueueStatus) : BQ :=
  let s1 := updateStatusInternal s id st
  if isFinished st then
    let s2 := { s1 with activeDownloads := s1.activeDownloads.filter (· ≠ id) }
    match List.lookup id s2.cancelFlags with
    | some ch => { s2 with closed := s2.closed ++ [ch],
                           cancelFlags := delk s2.cancelFlags id }
    | none => s2
  else s1

/-- Add, queue.go lines 124 to 145: a no-op unless the id is absent or in
error, done or cancelled; otherwise the descriptor is stored with the given
priority, an item is pushed and the status becomes queued. -/
def addOp (s : BQ) (id : String) (bk : Book) (pri : Int) : BQ :=
  if (match List.lookup id s.status with
      | some st => ! isReplaceable st
      | none => false) = true then s
  else
    let item : QueueItem := ⟨id, pri, s.clock⟩
    updateStatusInternal
      { s with queue := heapPush s.queue item,
               bookData := upsert s.bookData id { bk with priority := pri },
               clock := s.clock + 1 } id QueueStatus.queued

/-- The pop loop of GetNext, queue.go lines 153 to 169: pop until an item
whose status is not cancelled appears, or the heap empties.  Fuel equal to
the heap size bounds the loop. -/
def getNextLoop (fuel : Nat) (st : List (String × QueueStatus))
    (q : List QueueItem) : Option QueueItem × List QueueItem :=
  match fuel with
  | 0 => (none, q)
  | fuel + 1 =>
    if q.length = 0 then (none, q)
    else
      let r := heapPop q
      if List.lookup r.1.bookID st = some QueueStatus.cancelled then
        getNextLoop fuel st r.2
      else (some r.1, r.2)

/-- GetNext, queue.go lines 148 to 173: on success a fresh cancel channel is
allocated and the id is marked active. -/
def getNext (s : BQ) : BQ × Option (String × Nat) :=
  match getNextLoop s.queue.length s.status s.queue with
  | (none, q') => ({ s with queue := q' }, none)
  | (some it, q') =>
      ({ s with queue := q',
                cancelFlags := upsert s.cancelFlags it.bookID s.nextChan,
                nextChan := s.nextChan + 1,
                activeDownloads :=
                  if s.activeDownloads.contains it.bookID then
                    s.activeDownloads
                  else it.bookID :: s.activeDownloads },
       some (it.bookID, s.nextChan))

/-- UpdateProgress, queue.go lines 209 to 216. -/
def updateProgressOp (s : BQ) (id : String) (p : ℚ) : BQ :=
  match List.lookup id s.bookData with
  | some b => { s with bookData := upsert s.bookData id { b with progress := some p } }
  | none => s

/-- UpdateDownloadPath, queue.go lines 199 to 206. -/
def updateDownloadPathOp (s : BQ) (id : String) (path : String) : BQ :=
  match List.lookup id s.bookData with
  | some b =>
      { s with bookData := upsert s.bookData id { b with downloadPath := some path } }
  | none => s

/-- CancelDownload, queue.go lines 278 to 302: from downloading the cancel
channel is closed and the status set to cancelled; from queued only the
status is set; anything else is a no-op returning false. -/
def cancelDownload (s : BQ) (id : String) : BQ × Bool :=
  match List.lookup id s.status with
  | none => (s, false)
  | some st =>
    if st = QueueStatus.downloading then
      let s1 := match List.lookup id s.cancelFlags with
        | some ch => { s with closed := s.closed ++ [ch],
                              cancelFlags := delk s.cancelFlags id }
        | none => s
      (updateStatusInternal s1 id QueueStatus.cancelled, true)
    else if st = QueueStatus.queued then
      (updateStatusInternal s id QueueStatus.cancelled, true)
    else (s, false)

/-- SetPriority, queue.go lines 305 to 329. -/
def setPriorityOp (s : BQ) (id : String) (p : Int) : BQ × Bool :=
  if List.lookup id s.status = some QueueStatus.queued then
    match s.queue.findIdx? (fun it => it.bookID = id) with
    | none => (s, false)
    | some i =>
        let it := qget s.queue i
        let bd := match List.lookup id s.bookData with
          | some b => upsert s.bookData id { b with priority := p }
          | none => s.bookData
        ({ s with queue := heapFix (s.queue.set i { it with priority := p }) i,
                  bookData := bd }, true)
  else (s, false)

/-- Priority rewrite applied to one heap entry by ReorderQueue. -/
def reorderEntry (m : List (String × Int)) (it : QueueItem) : QueueItem :=
  match List.lookup it.bookID m with
  | some p => { it with priority := p }
  | none => it

/-- ReorderQueue, queue.go lines 332 to 352: set the new priority of every
queued entry named in the map, mirror it into bookData, then re-heapify. -/
def reorderQueue (s : BQ) (m : List (String × Int)) : BQ × Bool :=
  let q1 := s.queue.map (reorderEntry m)
  let bd := s.queue.foldl (fun bd it =>
    match List.lookup it.bookID m with
    | some p =>
        match List.lookup it.bookID bd with
        | some b => upsert bd it.bookID { b with priority := p }
        | none => bd
    | none => bd) s.bookData
  ({ s with queue := heapInit q1, bookData := bd }, true)

/-- One removal step of ClearCompleted, queue.go lines 379 to 388. -/
def clearOne (s : BQ) (id : String) : BQ :=
  let s1 := { s with status := delk s.status id,
                     timestamps := delk s.timestamps id,
                     bookData := delk s.bookData id,
                     activeDownloads := s.activeDownloads.filter (· ≠ id) }
  match List.lookup id s.cancelFlags with
  | some ch => { s1 with closed := s1.closed ++ [ch],
                         cancelFlags := delk s1.cancelFlags id }
  | none => s1

/-- ClearCompleted, queue.go lines 368 to 391: remove every id whose status
is done, error or cancelled and report how many were removed. -/
def clearCompleted (s : BQ) : BQ × Nat :=
  let toRemove := (s.status.filter (fun p => isReplaceable p.2)).map Prod.fst
  (toRemove.foldl clearOne s, toRemove.length)

/-! Trace semantics.  A system state pairs the registry with the ghost list
of workers of the worker pool source: a worker appears when GetNext hands it
an id (phase got), performs the UpdateStatus to downloading of
processDownload (phase running), and disappears with its terminal
UpdateStatus.  Each operation is one registry call made under the lock, so
an arbitrary interleaving of the concurrent system is a list of operations. -/

/-- Phase of a ghost worker: holding a freshly dispatched id, or running the
download after having marked it downloading. -/
inductive WPhase where
  | got
  | running
deriving DecidableEq, Repr

/-- A system state: the registry plus the ghost workers. -/
structure Sys where
  bq : BQ
  workers : List (String × WPhase)
deriving DecidableEq, Repr

/-- The initial system: empty registry, no workers. -/
def Sys.start : Sys := ⟨BQ.init, []⟩

/-- One registry call of the running system. -/
inductive Op where
  | add (id : String) (bk : Book) (pri : Int)
  | getNextOp
  | markDownloading (id : String)
  | finishWorker (id : String) (st : QueueStatus)
  | cancel (id : String)
  | clearOp
  | progress (id : String) (p : ℚ)
  | setPath (id : String) (path : String)
  | setPriority (id : String) (p : Int)
  | reorder (m : List (String × Int))
deriving DecidableEq, Repr

/-- Outcomes a worker writes back after DownloadBook returns, from
processDownload of the worker pool source. -/
def workerOutcome (st : QueueStatus) : Bool :=
  st = QueueStatus.available ∨ st = QueueStatus.error ∨
  st = QueueStatus.cancelled

/-- Small-step semantics of one registry call. -/
def step (s : Sys) : Op → Sys
  | Op.add id bk pri => { s with bq := addOp s.bq id bk pri }
  | Op.getNextOp =>
      match getNext s.bq with
      | (bq', none) => { bq := bq', workers := s.workers }
      | (bq', some r) => { bq := bq', workers := (r.1, WPhase.got) :: s.workers }
  | Op.markDownloading id =>
      if (id, WPhase.got) ∈ s.workers then
        { bq := updateStatus s.bq id QueueStatus.downloading,
          workers := (id, WPhase.running) :: s.workers.erase (id, WPhase.got) }
      else s
  | Op.finishWorker id st =>
      if (id, WPhase.running) ∈ s.workers ∧ workerOutcome st then
        { bq := updateStatus s.bq id st,
          workers := s.workers.erase (id, WPhase.running) }
      else s
  | Op.cancel id => { s with bq := (cancelDownload s.bq id).1 }
  | Op.clearOp => { s with bq := (clearCompleted s.bq).1 }
  | Op.progress id p => { s with bq := updateProgressOp s.bq id p }
  | Op.setPath id path => { s with bq := updateDownloadPathOp s.bq id path }
  | Op.setPriority id p => { s with bq := (setPriorityOp s.bq id p).1 }
  | Op.reorder m => { s with bq := (reorderQueue s.bq m).1 }

/-- Run a list of registry calls from a state. -/
def run (s : Sys) (ops : List Op) : Sys := ops.foldl step s

/-! Specifications of the GetNext pop loop. -/

/-- The loop never hands out an id whose status is cancelled, whatever the
shape of the heap. -/
theorem getNextLoop_not_cancelled : ∀ (fuel : Nat)
    (st : List (String × QueueStatus)) (q : List QueueItem)
    (it : QueueItem) (q2 : List QueueItem),
    getNextLoop fuel st q = (some it, q2) →
    List.lookup it.bookID st ≠ some QueueStatus.cancelled := by
  intro fuel
  induction fuel with
  | zero =>
    intro st q it q2 h
    simp [getNextLoop] at h
  | succ fuel ih =>
    intro st q it q2 h
    rw [getNextLoop] at h
    by_cases hq : q.length = 0
    · rw [if_pos hq] at h
      simp at h
    · rw [if_neg hq] at h
      dsimp only at h
      by_cases hc : List.lookup (heapPop q).1.bookID st = some QueueStatus.cancelled
      · rw [if_pos hc] at h
        exact ih st (heapPop q).2 it q2 h
      · rw [if_neg hc] at h
        have h1 : (heapPop q).1 = it := by
          have := congrArg Prod.fst h
          simpa using this
        rw [← h1]
        exact hc

/-- On a heap, the loop dispatches an entry that exists in the queue, is not
marked cancelled, and that no other non-cancelled entry strictly precedes in
the order (priority ascending, added time ascending); moreover it does
dispatch whenever some non-cancelled entry exists. -/
theorem getNextLoop_spec : ∀ (fuel : Nat)
    (st : List (String × QueueStatus)) (q : List QueueItem),
    q.length ≤ fuel → heapProp q →
    (∀ it q2, getNextLoop fuel st q = (some it, q2) →
      it ∈ q ∧ List.lookup it.bookID st ≠ some QueueStatus.cancelled ∧
      ∀ e ∈ q, List.lookup e.bookID st ≠ some QueueStatus.cancelled →
        pqLess e it = false) ∧
    ((∃ e ∈ q, List.lookup e.bookID st ≠ some QueueStatus.cancelled) →
      ∃ it q2, getNextLoop fuel st q = (some it, q2)) := by
  intro fuel
  induction fuel with
  | zero =>
    intro st q hf hh
    have hq : q = [] := List.eq_nil_of_length_eq_zero (by omega)
    subst hq
    constructor
    · intro it q2 h
      simp [getNextLoop] at h
    · intro h
      simp at h
  | succ fuel ih =>
    intro st q hf hh
    by_cases hq : q.length = 0
    · have hq' : q = [] := List.eq_nil_of_length_eq_zero hq
      subst hq'
      constructor
      · intro it q2 h
        rw [getNextLoop] at h
        simp at h
      · intro h
        simp at h
    · have h0 : 0 < q.length := by omega
      obtain ⟨hroot, hheap2, hperm, hlen⟩ := heapPop_spec q h0 hh
      have hsub : ∀ x, x ∈ (heapPop q).2 → x ∈ q := by
        intro x hx
        exact hperm.mem_iff.mp (List.mem_cons_of_mem _ hx)
      have hcons : ∀ x, x ∈ q → x = (heapPop q).1 ∨ x ∈ (heapPop q).2 := by
        intro x hx
        have := hperm.mem_iff.mpr hx
        rcases List.mem_cons.mp this with h | h
        · exact Or.inl h
        · exact Or.inr h
      by_cases hc : List.lookup (heapPop q).1.bookID st = some QueueStatus.cancelled
      · have hstep : getNextLoop (fuel + 1) st q =
            getNextLoop fuel st (heapPop q).2 := by
          rw [getNextLoop, if_neg hq]
          dsimp only
          rw [if_pos hc]
        obtain ⟨ihA, ihB⟩ := ih st (heapPop q).2 (by omega) hheap2
        constructor
        · intro it q2 h
          rw [hstep] at h
          obtain ⟨hmem, hnc, hmin⟩ := ihA it q2 h
          refine ⟨hsub it hmem, hnc, ?_⟩
          intro e he hne
          rcases hcons e he with h1 | h1
          · exact absurd (h1 ▸ hc) hne
          · exact hmin e h1 hne
        · intro hex
          obtain ⟨e, he, hne⟩ := hex
          rw [hstep]
          apply ihB
          rcases hcons e he with h1 | h1
          · exact absurd (h1 ▸ hc) hne
          · exact ⟨e, h1, hne⟩
      · have hstep : getNextLoop (fuel + 1) st q =
            (some (heapPop q).1, (heapPop q).2) := by
          rw [getNextLoop, if_neg hq]
          dsimp only
          rw [if_neg hc]
        constructor
        · intro it q2 h
          rw [hstep] at h
          have h1 : (heapPop q).1 = it := by
            have := congrArg Prod.fst h
            simpa using this
          subst h1
          have hrootmem : (heapPop q).1 ∈ q := by
            rw [hroot]
            have hq0 : qget q 0 = q[0] := by
              simp [qget, List.getD_eq_getElem?_getD, List.getElem?_eq_getElem h0]
            rw [hq0]
            exact List.getElem_mem h0
          refine ⟨hrootmem, hc, ?_⟩
          intro e he hne
          obtain ⟨k, hk, hke⟩ := List.mem_iff_getElem.mp he
          have hkq : qget q k = e := by
            simp [qget, List.getD_eq_getElem?_getD, List.getElem?_eq_getElem hk, hke]
          rw [hroot, ← hkq]
          exact heapFrom_root_min hh k hk
        · intro _
          exact ⟨(heapPop q).1, (heapPop q).2, hstep⟩

/-! Component lemmas: which fields each registry call can touch. -/

theorem updateStatus_status (s : BQ) (id : String) (st : QueueStatus) :
    (updateStatus s id st).status = upsert s.status id st := by
  unfold updateStatus updateStatusInternal
  dsimp only
  split
  · split <;> rfl
  · rfl

theorem lookup_status_addOp_ne (s : BQ) (id id' : String) (bk : Book)
    (pri : Int) (h : id ≠ id') :
    List.lookup id (addOp s id' bk pri).status = List.lookup id s.status := by
  unfold addOp
  dsimp only
  split
  · rfl
  · unfold updateStatusInternal
    dsimp only
    exact lookup_upsert_ne _ _ _ _ h

theorem getNext_status (s : BQ) : ((getNext s).1).status = s.status := by
  unfold getNext
  rcases hgl : getNextLoop s.queue.length s.status s.queue with ⟨o, q'⟩
  cases o <;> simp [hgl]

theorem updateProgressOp_status (s : BQ) (id : String) (p : ℚ) :
    (updateProgressOp s id p).status = s.status := by
  unfold updateProgressOp
  split <;> rfl

theorem updateDownloadPathOp_status (s : BQ) (id : String) (path : String) :
    (updateDownloadPathOp s id path).status = s.status := by
  unfold updateDownloadPathOp
  split <;> rfl

theorem setPriorityOp_status (s : BQ) (id : String) (p : Int) :
    ((setPriorityOp s id p).1).status = s.status := by
  unfold setPriorityOp
  split
  · split <;> rfl
  · rfl

theorem reorderQueue_status (s : BQ) (m : List (String × Int)) :
    ((reorderQueue s m).1).status = s.status := rfl

theorem cancelDownload_status_ne (s : BQ) (id id' : String) (h : id ≠ id') :
    List.lookup id ((cancelDownload s id').1).status = List.lookup id s.status := by
  unfold cancelDownload
  split
  · rfl
  · split
    · dsimp only
      split <;>
        (unfold updateStatusInternal; dsimp only;
          exact lookup_upsert_ne _ _ _ _ h)
    · split
      · unfold updateStatusInternal
        dsimp only
        exact lookup_upsert_ne _ _ _ _ h
      · rfl

theorem cancelDownload_cancelled_self (s : BQ) (id : String)
    (h : List.lookup id s.status = some QueueStatus.cancelled) :
    (cancelDownload s id).1 = s := by
  unfold cancelDownload
  rw [h]
  dsimp only
  rw [if_neg (by simp), if_neg (by simp)]

/-! Claim C1 invariant: once an id is cancelled and no ghost worker holds
it, every call other than an Add of that id and a ClearCompleted keeps the
status cancelled and keeps every worker away from the id. -/

/-- Operations the amended claim C1 quantifies over: anything except an Add
of the observed id and except ClearCompleted. -/
def c1allowed (id : String) : Op → Bool
  | Op.add id' _ _ => id' ≠ id
  | Op.clearOp => false
  | _ => true

/-- The C1 preservation invariant. -/
def C1Inv (s : Sys) (id : String) : Prop :=
  List.lookup id s.bq.status = some QueueStatus.cancelled ∧
  ∀ w ∈ s.workers, w.1 ≠ id

theorem c1inv_step {s : Sys} {id : String} (hinv : C1Inv s id) (op : Op)
    (hop : c1allowed id op = true) : C1Inv (step s op) id := by
  obtain ⟨hst, hwk⟩ := hinv
  cases op with
  | add id' bk pri =>
    have hne : id' ≠ id := by simpa [c1allowed] using hop
    refine ⟨?_, hwk⟩
    show List.lookup id (addOp s.bq id' bk pri).status = _
    rw [lookup_status_addOp_ne _ _ _ _ _ (fun he => hne he.symm)]
    exact hst
  | getNextOp =>
    show C1Inv (match getNext s.bq with
      | (bq', none) => { bq := bq', workers := s.workers }
      | (bq', some r) => { bq := bq', workers := (r.1, WPhase.got) :: s.workers }) id
    unfold getNext
    rcases hgl : getNextLoop s.bq.queue.length s.bq.status s.bq.queue with ⟨o, q'⟩
    cases o with
    | none => exact ⟨hst, hwk⟩
    | some it =>
      refine ⟨hst, ?_⟩
      intro w hw
      rcases List.mem_cons.mp hw with h | h
      · subst h
        dsimp only
        intro he
        exact getNextLoop_not_cancelled _ _ _ _ _ hgl (he ▸ hst)
      · exact hwk w h
  | markDownloading id' =>
    show C1Inv (if (id', WPhase.got) ∈ s.workers then _ else s) id
    split
    case isTrue hmem =>
      have hne : id' ≠ id := hwk _ hmem
      refine ⟨?_, ?_⟩
      · show List.lookup id (updateStatus s.bq id' QueueStatus.downloading).status = _
        rw [updateStatus_status, lookup_upsert_ne _ _ _ _ (fun he => hne he.symm)]
        exact hst
      · intro w hw
        rcases List.mem_cons.mp hw with h | h
        · subst h
          exact hne
        · exact hwk w (List.mem_of_mem_erase h)
    case isFalse => exact ⟨hst, hwk⟩
  | finishWorker id' st =>
    show C1Inv (if (id', WPhase.running) ∈ s.workers ∧ workerOutcome st then _ else s) id
    split
    case isTrue hmem =>
      have hne : id' ≠ id := hwk _ hmem.1
      refine ⟨?_, ?_⟩
      · show List.lookup id (updateStatus s.bq id' st).status = _
        rw [updateStatus_status, lookup_upsert_ne _ _ _ _ (fun he => hne he.symm)]
        exact hst
      · intro w hw
        exact hwk w (List.mem_of_mem_erase hw)
    case isFalse => exact ⟨hst, hwk⟩
  | cancel id' =>
    refine ⟨?_, hwk⟩
    show List.lookup id ((cancelDownload s.bq id').1).status = _
    by_cases he : id' = id
    · subst he
      rw [cancelDownload_cancelled_self s.bq id' hst]
      exact hst
    · rw [cancelDownload_status_ne _ _ _ (fun h => he h.symm)]
      exact hst
  | clearOp => simp [c1allowed] at hop
  | progress id' p =>
    refine ⟨?_, hwk⟩
    show List.lookup id (updateProgressOp s.bq id' p).status = _
    rw [updateProgressOp_status]
    exact hst
  | setPath id' path =>
    refine ⟨?_, hwk⟩
    show List.lookup id (updateDownloadPathOp s.bq id' path).status = _
    rw [updateDownloadPathOp_status]
    exact hst
  | setPriority id' p =>
    refine ⟨?_, hwk⟩
    show List.lookup id ((setPriorityOp s.bq id' p).1).status = _
    rw [setPriorityOp_status]
    exact hst
  | reorder m =>
    refine ⟨?_, hwk⟩
    show List.lookup id ((reorderQueue s.bq m).1).status = _
    rw [reorderQueue_status]
    exact hst

theorem c1inv_run {s : Sys} {id : String} (hinv : C1Inv s id)
    (ops : List Op) (hops : ∀ op ∈ ops, c1allowed id op = true) :
    C1Inv (run s ops) id := by
  induction ops generalizing s with
  | nil => exact hinv
  | cons op t ih =>
    exact ih (c1inv_step hinv op (hops op (List.mem_cons_self _ _)))
      (fun o ho => hops o (List.mem_cons_of_mem _ ho))

/-! Claim C2 invariant: bookkeeping of the cancel channels.  The invariant
records that channel keys and channel identities are unique, that no held
channel was ever closed, that every close event is unique (each channel is
closed at most once), and that the key of every held channel is marked
active. -/

theorem delk_sublist {β : Type} (m : List (String × β)) (k : String) :
    (delk m k).Sublist m := by
  induction m with
  | nil => exact List.Sublist.refl _
  | cons p t ih =>
    by_cases hp : p.1 = k
    · simp only [delk, hp, if_pos rfl]
      exact List.sublist_cons_self _ _
    · simp only [delk, hp, if_false]
      exact ih.cons₂ p

theorem perm_upsert {β : Type} (m : List (String × β)) (k : String) (v : β) :
    (upsert m k v).Perm ((k, v) :: delk m k) := by
  induction m with
  | nil => simp [upsert, delk]
  | cons p t ih =>
    obtain ⟨a, b⟩ := p
    by_cases hp : a = k
    · simp only [upsert, delk, hp, if_pos rfl]
      exact List.Perm.refl _
    · simp only [upsert, delk, hp, if_false]
      exact (ih.cons (a, b)).trans (List.Perm.swap (k, v) (a, b) (delk t k))

theorem lookup_mem {β : Type} {m : List (String × β)} {k : String} {v : β}
    (h : List.lookup k m = some v) : (k, v) ∈ m :=
  (perm_delk_of_lookup h).mem_iff.mpr (List.mem_cons_self _ _)

/-- Core bookkeeping of closing the channel held for an id: key and value
books stay unique, the close event is fresh, remaining channels are still
open, bounded and keyed away from the id. -/
theorem flag_close_core {flags : List (String × Nat)} {closed : List Nat}
    {next : Nat} {id : String} {ch : Nat}
    (hlook : List.lookup id flags = some ch)
    (hk : (flags.map Prod.fst).Nodup)
    (hv : (flags.map Prod.snd).Nodup)
    (hc : closed.Nodup)
    (hp : ∀ p ∈ flags, p.2 ∉ closed ∧ p.2 < next)
    (hcl : ∀ c ∈ closed, c < next) :
    ((delk flags id).map Prod.fst).Nodup ∧
    ((delk flags id).map Prod.snd).Nodup ∧
    (closed ++ [ch]).Nodup ∧
    (∀ p ∈ delk flags id, p.2 ∉ closed ++ [ch] ∧ p.2 < next) ∧
    (∀ c ∈ closed ++ [ch], c < next) ∧
    (∀ p ∈ delk flags id, p.1 ≠ id) := by
  have hperm := perm_delk_of_lookup hlook
  have hvperm : (flags.map Prod.snd).Perm (ch :: (delk flags id).map Prod.snd) := by
    simpa using hperm.map Prod.snd
  have hkperm : (flags.map Prod.fst).Perm (id :: (delk flags id).map Prod.fst) := by
    simpa using hperm.map Prod.fst
  have hvd := List.nodup_cons.mp (hvperm.nodup_iff.mp hv)
  have hkd := List.nodup_cons.mp (hkperm.nodup_iff.mp hk)
  have hchmem : (id, ch) ∈ flags := lookup_mem hlook
  have hchfacts := hp _ hchmem
  refine ⟨hkd.2, hvd.2, ?_, ?_, ?_, ?_⟩
  · rw [List.nodup_append]
    refine ⟨hc, List.nodup_singleton _, ?_⟩
    intro a ha hb
    have : a = ch := by simpa using hb
    exact hchfacts.1 (this ▸ ha)
  · intro p hpd
    have hpm : p ∈ flags := mem_delk_subset hpd
    have h1 := hp p hpm
    refine ⟨?_, h1.2⟩
    intro hmem
    rcases List.mem_append.mp hmem with h | h
    · exact h1.1 h
    · have h2 : p.2 = ch := by simpa using h
      exact hvd.1 (h2 ▸ List.mem_map_of_mem Prod.snd hpd)
  · intro c hcm
    rcases List.mem_append.mp hcm with h | h
    · exact hcl c h
    · have h2 : c = ch := by simpa using h
      exact h2 ▸ hchfacts.2
  · intro p hpd hpe
    have hmm : p.1 ∈ (delk flags id).map Prod.fst :=
      List.mem_map_of_mem Prod.fst hpd
    rw [hpe] at hmm
    exact hkd.1 hmm

/-- The channel bookkeeping invariant of a registry state. -/
def FlagInv (b : BQ) : Prop :=
  (b.cancelFlags.map Prod.fst).Nodup ∧
  (b.cancelFlags.map Prod.snd).Nodup ∧
  b.closed.Nodup ∧
  (∀ p ∈ b.cancelFlags,
    p.2 ∉ b.closed ∧ p.2 < b.nextChan ∧ p.1 ∈ b.activeDownloads) ∧
  (∀ ch ∈ b.closed, ch < b.nextChan)

theorem not_mem_keys_delk {β : Type} {m : List (String × β)}
    (hk : (m.map Prod.fst).Nodup) (k : String) :
    k ∉ (delk m k).map Prod.fst := by
  induction m with
  | nil => simp [delk]
  | cons p t ih =>
    obtain ⟨a, b⟩ := p
    rw [List.map_cons, List.nodup_cons] at hk
    by_cases hp : a = k
    · simp only [delk, hp, if_pos rfl]
      exact hp ▸ hk.1
    · simp only [delk, hp, if_false, List.map_cons, List.mem_cons]
      rintro (h | h)
      · exact hp h.symm
      · exact ih hk.2 h

theorem mem_filter_ne {l : List String} {x id : String} (hx : x ∈ l)
    (hne : x ≠ id) : x ∈ l.filter (· ≠ id) :=
  List.mem_filter.mpr ⟨hx, by simpa using hne⟩

theorem flagInv_updateStatus {b : BQ} (h : FlagInv b) (id : String)
    (st : QueueStatus) : FlagInv (updateStatus b id st) := by
  obtain ⟨hk, hv, hc, hp, hcl⟩ := h
  unfold updateStatus updateStatusInternal
  dsimp only
  split
  case isTrue =>
    rcases hl : List.lookup id b.cancelFlags with _ | ch
    · dsimp only
      refine ⟨hk, hv, hc, ?_, hcl⟩
      intro p hpm
      have h1 := hp p hpm
      refine ⟨h1.1, h1.2.1, ?_⟩
      apply mem_filter_ne h1.2.2
      intro he
      have := lookup_isSome_of_mem hpm
      rw [he, hl] at this
      simp at this
    · dsimp only
      have hcore := flag_close_core hl hk hv hc
        (fun p hpm => ⟨(hp p hpm).1, (hp p hpm).2.1⟩) hcl
      refine ⟨hcore.1, hcore.2.1, hcore.2.2.1, ?_, hcore.2.2.2.2.1⟩
      intro p hpm
      have h1 := hcore.2.2.2.1 p hpm
      have h2 := hp p (mem_delk_subset hpm)
      have h3 := hcore.2.2.2.2.2 p hpm
      exact ⟨h1.1, h1.2, mem_filter_ne h2.2.2 h3⟩
  case isFalse => exact ⟨hk, hv, hc, hp, hcl⟩

theorem flagInv_cancelDownload {b : BQ} (h : FlagInv b) (id : String) :
    FlagInv ((cancelDownload b id).1) := by
  obtain ⟨hk, hv, hc, hp, hcl⟩ := h
  unfold cancelDownload
  split
  · exact ⟨hk, hv, hc, hp, hcl⟩
  · split
    · dsimp only
      rcases hl : List.lookup id b.cancelFlags with _ | ch
      · dsimp only
        exact ⟨hk, hv, hc, hp, hcl⟩
      · dsimp only
        unfold updateStatusInternal
        dsimp only
        have hcore := flag_close_core hl hk hv hc
          (fun p hpm => ⟨(hp p hpm).1, (hp p hpm).2.1⟩) hcl
        refine ⟨hcore.1, hcore.2.1, hcore.2.2.1, ?_, hcore.2.2.2.2.1⟩
        intro p hpm
        have h1 := hcore.2.2.2.1 p hpm
        have h2 := hp p (mem_delk_subset hpm)
        exact ⟨h1.1, h1.2, h2.2.2⟩
    · split
      · unfold updateStatusInternal
        dsimp only
        exact ⟨hk, hv, hc, hp, hcl⟩
      · exact ⟨hk, hv, hc, hp, hcl⟩

theorem flagInv_clearOne {b : BQ} (h : FlagInv b) (id : String) :
    FlagInv (clearOne b id) := by
  obtain ⟨hk, hv, hc, hp, hcl⟩ := h
  unfold clearOne
  dsimp only
  rcases hl : List.lookup id b.cancelFlags with _ | ch
  · dsimp only
    refine ⟨hk, hv, hc, ?_, hcl⟩
    intro p hpm
    have h1 := hp p hpm
    refine ⟨h1.1, h1.2.1, ?_⟩
    apply mem_filter_ne h1.2.2
    intro he
    have := lookup_isSome_of_mem hpm
    rw [he, hl] at this
    simp at this
  · dsimp only
    have hcore := flag_close_core hl hk hv hc
      (fun p hpm => ⟨(hp p hpm).1, (hp p hpm).2.1⟩) hcl
    refine ⟨hcore.1, hcore.2.1, hcore.2.2.1, ?_, hcore.2.2.2.2.1⟩
    intro p hpm
    have h1 := hcore.2.2.2.1 p hpm
    have h2 := hp p (mem_delk_subset hpm)
    have h3 := hcore.2.2.2.2.2 p hpm
    exact ⟨h1.1, h1.2, mem_filter_ne h2.2.2 h3⟩

theorem mem_upsert_cases {β : Type} {m : List (String × β)} {k : String}
    {v : β} {p : String × β} (h : p ∈ upsert m k v) :
    p = (k, v) ∨ p ∈ m := by
  have := (perm_upsert m k v).mem_iff.mp h
  rcases List.mem_cons.mp this with h1 | h1
  · exact Or.inl h1
  · exact Or.inr (mem_delk_subset h1)

theorem flagInv_getNext {b : BQ} (h : FlagInv b) :
    FlagInv ((getNext b).1) := by
  obtain ⟨hk, hv, hc, hp, hcl⟩ := h
  unfold getNext
  rcases hgl : getNextLoop b.queue.length b.status b.queue with ⟨o, q'⟩
  cases o with
  | none => exact ⟨hk, hv, hc, hp, hcl⟩
  | some it =>
    dsimp only
    have hvals : ∀ x ∈ (delk b.cancelFlags it.bookID).map Prod.snd,
        x < b.nextChan := by
      intro x hx
      obtain ⟨p, hpm, hpe⟩ := List.mem_map.mp hx
      exact hpe ▸ (hp p (mem_delk_subset hpm)).2.1
    have hvperm : ((upsert b.cancelFlags it.bookID b.nextChan).map Prod.snd).Perm
        (b.nextChan :: (delk b.cancelFlags it.bookID).map Prod.snd) := by
      simpa using (perm_upsert b.cancelFlags it.bookID b.nextChan).map Prod.snd
    have hvd : ((delk b.cancelFlags it.bookID).map Prod.snd).Nodup :=
      ((delk_sublist b.cancelFlags it.bookID).map Prod.snd).nodup hv
    refine ⟨keys_upsert_nodup _ _ hk, ?_, hc, ?_, ?_⟩
    · rw [hvperm.nodup_iff]
      rw [List.nodup_cons]
      exact ⟨fun hmem => absurd (hvals _ hmem) (by omega), hvd⟩
    · intro p hpm
      rcases mem_upsert_cases hpm with h1 | h1
      · subst h1
        refine ⟨fun hmem => absurd (hcl _ hmem) (by omega), by dsimp only; omega, ?_⟩
        dsimp only
        split
        case isTrue hcont => exact List.mem_of_elem_eq_true (by simpa using hcont)
        case isFalse => exact List.mem_cons_self _ _
      · have h2 := hp p h1
        refine ⟨h2.1, by dsimp only; omega, ?_⟩
        dsimp only
        split
        case isTrue => exact h2.2.2
        case isFalse => exact List.mem_cons_of_mem _ h2.2.2
    · intro ch hch
      have := hcl ch hch
      dsimp only
      omega

theorem flagInv_addOp {b : BQ} (h : FlagInv b) (id : String) (bk : Book)
    (pri : Int) : FlagInv (addOp b id bk pri) := by
  unfold addOp updateStatusInternal
  dsimp only
  split
  · exact h
  · exact h

theorem flagInv_updateProgressOp {b : BQ} (h : FlagInv b) (id : String)
    (p : ℚ) : FlagInv (updateProgressOp b id p) := by
  unfold updateProgressOp
  split <;> exact h

theorem flagInv_updateDownloadPathOp {b : BQ} (h : FlagInv b) (id : String)
    (path : String) : FlagInv (updateDownloadPathOp b id path) := by
  unfold updateDownloadPathOp
  split <;> exact h

theorem flagInv_setPriorityOp {b : BQ} (h : FlagInv b) (id : String)
    (p : Int) : FlagInv ((setPriorityOp b id p).1) := by
  unfold setPriorityOp
  split
  · split <;> exact h
  · exact h

theorem flagInv_reorderQueue {b : BQ} (h : FlagInv b)
    (m : List (String × Int)) : FlagInv ((reorderQueue b m).1) := h

theorem flagInv_clearCompleted {b : BQ} (h : FlagInv b) :
    FlagInv ((clearCompleted b).1) := by
  unfold clearCompleted
  dsimp only
  generalize (List.map Prod.fst (List.filter (fun p => isReplaceable p.2)
    b.status)) = ids
  induction ids generalizing b with
  | nil => exact h
  | cons x t ih => exact ih (flagInv_clearOne h x)

theorem flagInv_step {s : Sys} (h : FlagInv s.bq) (op : Op) :
    FlagInv (step s op).bq := by
  cases op with
  | add id bk pri => exact flagInv_addOp h id bk pri
  | getNextOp =>
    show FlagInv (match getNext s.bq with
      | (bq', none) => ({ bq := bq', workers := s.workers } : Sys)
      | (bq', some r) =>
          ({ bq := bq', workers := (r.1, WPhase.got) :: s.workers } : Sys)).bq
    rcases hg : getNext s.bq with ⟨bq', o⟩
    have hbq : bq' = (getNext s.bq).1 := by rw [hg]
    cases o with
    | none =>
      dsimp only
      rw [hbq]
      exact flagInv_getNext h
    | some r =>
      dsimp only
      rw [hbq]
      exact flagInv_getNext h
  | markDownloading id =>
    show FlagInv (if (id, WPhase.got) ∈ s.workers then _ else s).bq
    split
    · exact flagInv_updateStatus h id QueueStatus.downloading
    · exact h
  | finishWorker id st =>
    show FlagInv
      (if (id, WPhase.running) ∈ s.workers ∧ workerOutcome st then _ else s).bq
    split
    · exact flagInv_updateStatus h id st
    · exact h
  | cancel id => exact flagInv_cancelDownload h id
  | clearOp => exact flagInv_clearCompleted h
  | progress id p => exact flagInv_updateProgressOp h id p
  | setPath id path => exact flagInv_updateDownloadPathOp h id path
  | setPriority id p => exact flagInv_setPriorityOp h id p
  | reorder m => exact flagInv_reorderQueue h m

theorem flagInv_start : FlagInv Sys.start.bq := by
  refine ⟨List.nodup_nil, List.nodup_nil, List.nodup_nil, ?_, ?_⟩ <;>
    intro p hp <;> simp [Sys.start, BQ.init] at hp

theorem flagInv_run (ops : List Op) : FlagInv (run Sys.start ops).bq := by
  have hgen : ∀ (s : Sys), FlagInv s.bq → FlagInv (run s ops).bq := by
    induction ops with
    | nil => intro s h; exact h
    | cons op t ih => intro s h; exact ih _ (flagInv_step h op)
  exact hgen _ flagInv_start

/-- Any UpdateStatus to a terminal state leaves no cancel handle behind for
the id, provided the handle keys are unique (as the invariant guarantees). -/
theorem updateStatus_flags_none {b : BQ}
    (hk : (b.cancelFlags.map Prod.fst).Nodup) (id : String)
    (st : QueueStatus) (hf : isFinished st = true) :
    List.lookup id (updateStatus b id st).cancelFlags = none := by
  unfold updateStatus updateStatusInternal
  dsimp only
  rw [if_pos hf]
  rcases hl : List.lookup id b.cancelFlags with _ | ch
  · dsimp only
    exact hl
  · dsimp only
    exact lookup_eq_none_of_not_mem_keys (not_mem_keys_delk hk id)

/-! The fetcher, from the final revision of downloader.go.  Strings are
handled on their character lists; the fmt.Sscanf verb pair used by the size
parsers is modelled for plain decimal numbers (optional sign, digits, an
optional fraction), which covers every size string the surrounding code
builds; float64 arithmetic is modelled exactly by the rationals and the Go
int64 conversion by truncation toward zero. -/

/-- Whitespace recognised by strings.TrimSpace and the Sscanf verbs, in the
ASCII range the inputs use. -/
def isSpaceChar (c : Char) : Bool :=
  c = ' ' ∨ c = '\t' ∨ c = '\n' ∨ c = '\r'

def isDigitChar (c : Char) : Bool := '0' ≤ c ∧ c ≤ '9'

def digitVal (c : Char) : Nat := c.toNat - '0'.toNat

def natOfDigits (l : List Char) : Nat :=
  l.foldl (fun a c => a * 10 + digitVal c) 0

/-- Verb %f of fmt.Sscanf on a decimal number: skip spaces, optional sign,
digits with an optional fraction; at least one digit is required.  The
parsed value is returned as the exact fraction numerator over denominator
(a power of ten), which represents the float64 the Go code computes. -/
def scanFloat (l : List Char) : Option ((Int × Nat) × List Char) :=
  let l1 := l.dropWhile isSpaceChar
  let signRest : Int × List Char :=
    match l1 with
    | '+' :: t => (1, t)
    | '-' :: t => (-1, t)
    | _ => (1, l1)
  let intPart := signRest.2.takeWhile isDigitChar
  let rest := signRest.2.dropWhile isDigitChar
  match rest with
  | '.' :: r2 =>
      let fracPart := r2.takeWhile isDigitChar
      let rest2 := r2.dropWhile isDigitChar
      if intPart.length + fracPart.length = 0 then none
      else some ((signRest.1 *
        ((natOfDigits intPart : Int) * (10 ^ fracPart.length : Nat) +
          (natOfDigits fracPart : Int)), 10 ^ fracPart.length), rest2)
  | _ =>
      if intPart.length = 0 then none
      else some ((signRest.1 * (natOfDigits intPart : Int), 1), rest)

/-- Verb %s of fmt.Sscanf: skip spaces, read a nonempty run of non-space
characters. -/
def scanWord (l : List Char) : Option (String × List Char) :=
  let l1 := l.dropWhile isSpaceChar
  let w := l1.takeWhile (fun c => ! isSpaceChar c)
  if w.length = 0 then none
  else some (String.mk w, l1.dropWhile (fun c => ! isSpaceChar c))

/-- fmt.Sscanf with the format of the size parsers: a number and a unit. -/
def scanSizeFS (s : String) : Option ((Int × Nat) × String) :=
  match scanFloat s.toList with
  | none => none
  | some (v, rest) =>
    match scanWord rest with
    | none => none
    | some (u, _) => some (v, u)

def toUpperStr (s : String) : String := String.mk (s.toList.map Char.toUpper)

def commaToDot (s : String) : String :=
  String.mk (s.toList.map (fun c => if c = ',' then '.' else c))

def trimSpaceStr (s : String) : String :=
  String.mk (((s.toList.dropWhile isSpaceChar).reverse.dropWhile
    isSpaceChar).reverse)

/-- Conversion of a Go float64 (held as an exact fraction) to int64:
truncation toward zero, which is what the Go conversion performs. -/
def fracTrunc (v : Int × Nat) : Int := v.1 / (v.2 : Int)

/-- Value of an exact fraction as a rational. -/
def fracVal (v : Int × Nat) : ℚ := (v.1 : ℚ) / (v.2 : ℚ)

/-- parseSizeStringInt64 of downloader.go: trim, uppercase, comma to dot,
scan a number and a unit, scale by the binary unit, truncate to int64;
any scan failure yields zero. -/
def parseSizeStringInt64 (size : String) : Int :=
  match scanSizeFS (commaToDot (toUpperStr (trimSpaceStr size))) with
  | none => 0
  | some (v, u) =>
    if u = "KB" then fracTrunc (v.1 * 1024, v.2)
    else if u = "MB" then fracTrunc (v.1 * 1024 * 1024, v.2)
    else if u = "GB" then fracTrunc (v.1 * 1024 * 1024 * 1024, v.2)
    else fracTrunc v

/-- parseSizeStringFloat64 of downloader.go: as above without the final
truncation, the float64 result held as an exact fraction. -/
def parseSizeStringFloat64 (size : String) : Int × Nat :=
  match scanSizeFS (commaToDot (toUpperStr (trimSpaceStr size))) with
  | none => (0, 1)
  | some (v, u) =>
    if u = "KB" then (v.1 * 1024, v.2)
    else if u = "MB" then (v.1 * 1024 * 1024, v.2)
    else if u = "GB" then (v.1 * 1024 * 1024 * 1024, v.2)
    else v

/-- Characters the sanitizing regular expression of downloader.go keeps. -/
def allowedChar (c : Char) : Bool :=
  ('a' ≤ c ∧ c ≤ 'z') ∨ ('A' ≤ c ∧ c ≤ 'Z') ∨ ('0' ≤ c ∧ c ≤ '9') ∨
  c = ' ' ∨ c = '.' ∨ c = '_' ∨ c = '-'

/-- sanitizeFilename of downloader.go: strip every character outside the
allowed set, then trim surrounding whitespace. -/
def sanitizeFilename (s : String) : String :=
  trimSpaceStr (String.mk (s.toList.filter allowedChar))

/-- Filename derivation of the final DownloadBook: base name from the title
when configured and nonempty, else the id; the extension is appended only
when a nonempty format is supplied; the whole name is then sanitized. -/
def deriveFilename (useBookTitle : Bool) (title bookID : String)
    (format : Option String) : String :=
  let base := if useBookTitle = true ∧ title ≠ "" then title else bookID
  let named := match format with
    | some f => if f ≠ "" then base ++ "." ++ f else base
    | none => base
  sanitizeFilename named

/-- An HTTP response as the download loop consumes it: status, declared
length (minus one when unknown, as in Go), content type, and the byte
counts of the successive reads before EOF. -/
structure HttpResp where
  statusCode : Nat
  contentLength : Int
  contentType : String
  chunks : List Nat
deriving DecidableEq, Repr

/-- Outcome of one single-URL attempt. -/
inductive DlOutcome where
  | ok (downloaded : Nat)
  | badStatus (code : Nat)
  | cancelledDl
  | incomplete (got : Nat) (expected : Int)
  | htmlContent
deriving DecidableEq, Repr

/-- Whether the context is observed cancelled at a given poll. -/
def cancelledAt (cancelAfter : Option Nat) (iter : Nat) : Bool :=
  match cancelAfter with
  | some k => k ≤ iter
  | none => false

/-- Expected total size of the file download: the parsed caller-declared
size when nonempty and nonzero, else the declared content length. -/
def effectiveTotal (size : String) (resp : HttpResp) : Int :=
  let parsed := if size ≠ "" then parseSizeStringInt64 size else 0
  if parsed = 0 then resp.contentLength else parsed

def hasPrefixStr (s pre : String) : Bool := pre.toList.isPrefixOf s.toList

/-- Read loop of the final DownloadURL method: poll cancellation, consume a
chunk, and at EOF reject the download as incomplete when fewer than ninety
percent of the expected bytes arrived. -/
def dlFileLoop (totalSize : Int) (cancelAfter : Option Nat) :
    List Nat → Nat → Nat → DlOutcome
  | chunks, downloaded, iter =>
    if cancelledAt cancelAfter iter then DlOutcome.cancelledDl
    else match chunks with
    | [] =>
        if 0 < totalSize ∧ 10 * (downloaded : Int) < 9 * totalSize then
          DlOutcome.incomplete downloaded totalSize
        else DlOutcome.ok downloaded
    | c :: cs => dlFileLoop totalSize cancelAfter cs (downloaded + c) (iter + 1)

/-- The final DownloadURL method of downloader.go (file variant): non-200
responses fail, then the read loop runs against the expected total. -/
def downloadURLFile (size : String) (resp : HttpResp)
    (cancelAfter : Option Nat) : DlOutcome :=
  if resp.statusCode ≠ 200 then DlOutcome.badStatus resp.statusCode
  else dlFileLoop (effectiveTotal size resp) cancelAfter resp.chunks 0 0

/-- Read loop of DownloadURLToBuffer: at EOF a short download is reported as
HTML content only when the content type says so, and accepted otherwise.
The expected total is an exact fraction with positive denominator; the
ninety percent comparison is cross multiplied. -/
def dlBufferLoop (total : Int × Nat) (ct : String) (cancelAfter : Option Nat) :
    List Nat → Nat → Nat → DlOutcome
  | chunks, downloaded, iter =>
    if cancelledAt cancelAfter iter then DlOutcome.cancelledDl
    else match chunks with
    | [] =>
        if 0 < total.1 ∧
            10 * (downloaded : Int) * (total.2 : Int) < 9 * total.1 ∧
            hasPrefixStr ct "text/html" then
          DlOutcome.htmlContent
        else DlOutcome.ok downloaded
    | c :: cs => dlBufferLoop total ct cancelAfter cs (downloaded + c) (iter + 1)

/-- DownloadURLToBuffer of downloader.go: the content length is preferred
and the declared size parsed only when the length is zero. -/
def downloadURLBuffer (size : String) (resp : HttpResp)
    (cancelAfter : Option Nat) : DlOutcome :=
  if resp.statusCode ≠ 200 then DlOutcome.badStatus resp.statusCode
  else
    let total : Int × Nat :=
      if resp.contentLength = 0 ∧ size ≠ "" then
        parseSizeStringFloat64 size
      else (resp.contentLength, 1)
    dlBufferLoop total resp.contentType cancelAfter resp.chunks 0 0

/-- Progress values the final DownloadURL reports: after every nonempty
read, the running total scaled against the expected total, provided that
total is positive. -/
def progressReports (total : Int) : List Nat → Nat → List ℚ
  | [], _ => []
  | c :: cs, acc =>
      if 0 < c then
        if 0 < total then
          (((acc + c : Nat) : ℚ) * 100 / (total : ℚ)) ::
            progressReports total cs (acc + c)
        else progressReports total cs (acc + c)
      else progressReports total cs acc

/-! Helper lemmas for the claim theorems. -/

/-- Without cancellation and with clean reads, the file loop reduces to the
truncation test on the total number of bytes. -/
theorem dlFileLoop_none (total : Int) : ∀ (chunks : List Nat)
    (downloaded iter : Nat),
    dlFileLoop total none chunks downloaded iter =
      if 0 < total ∧ 10 * ((downloaded + chunks.sum : Nat) : Int) < 9 * total
      then DlOutcome.incomplete (downloaded + chunks.sum) total
      else DlOutcome.ok (downloaded + chunks.sum) := by
  intro chunks
  induction chunks with
  | nil =>
    intro d i
    unfold dlFileLoop
    simp [cancelledAt]
  | cons c cs ih =>
    intro d i
    unfold dlFileLoop
    simp only [cancelledAt, if_false, Bool.false_eq_true]
    rw [ih]
    have he : d + c + cs.sum = d + (c :: cs).sum := by
      simp only [List.sum_cons]
      omega
    rw [he]

/-- Every character of a sanitized filename is in the allowed set. -/
theorem sanitize_chars_allowed (s : String) :
    ∀ c ∈ (sanitizeFilename s).toList, allowedChar c = true := by
  intro c hc
  unfold sanitizeFilename trimSpaceStr at hc
  have h1 : (String.mk ((((String.mk (s.toList.filter
      allowedChar)).toList.dropWhile isSpaceChar).reverse.dropWhile
      isSpaceChar).reverse)).toList =
      ((((s.toList.filter allowedChar).dropWhile
        isSpaceChar).reverse.dropWhile isSpaceChar).reverse) := rfl
  rw [h1] at hc
  rw [List.mem_reverse] at hc
  have hc2 := (List.dropWhile_sublist _).mem hc
  rw [List.mem_reverse] at hc2
  have hc3 := (List.dropWhile_sublist _).mem hc2
  exact List.of_mem_filter hc3

/-- Every reported progress value is a positive multiple of one hundred
over the expected total, with the multiplier at most the bytes served. -/
theorem progressReports_mem (total : Int) : ∀ (chunks : List Nat)
    (acc : Nat) (v : ℚ), v ∈ progressReports total chunks acc →
    0 < total ∧ ∃ k : Nat, k ≤ acc + chunks.sum ∧
      v = (k : ℚ) * 100 / (total : ℚ) := by
  intro chunks
  induction chunks with
  | nil =>
    intro acc v hv
    simp [progressReports] at hv
  | cons c cs ih =>
    intro acc v hv
    unfold progressReports at hv
    by_cases hc : 0 < c
    · rw [if_pos hc] at hv
      by_cases ht : 0 < total
      · rw [if_pos ht] at hv
        rcases List.mem_cons.mp hv with h | h
        · refine ⟨ht, acc + c, ?_, h⟩
          simp only [List.sum_cons]
          omega
        · obtain ⟨ht2, k, hk, hkv⟩ := ih (acc + c) v h
          refine ⟨ht2, k, ?_, hkv⟩
          simp only [List.sum_cons] at hk ⊢
          omega
      · rw [if_neg ht] at hv
        obtain ⟨ht2, k, hk, hkv⟩ := ih (acc + c) v hv
        refine ⟨ht2, k, ?_, hkv⟩
        simp only [List.sum_cons] at hk ⊢
        omega
    · rw [if_neg hc] at hv
      obtain ⟨ht2, k, hk, hkv⟩ := ih acc v hv
      refine ⟨ht2, k, ?_, hkv⟩
      simp only [List.sum_cons] at hk ⊢
      omega

theorem clearOne_status (b : BQ) (id : String) :
    (clearOne b id).status = delk b.status id := by
  unfold clearOne
  dsimp only
  split <;> rfl

theorem foldl_clearOne_status : ∀ (ids : List String) (b : BQ),
    (ids.foldl clearOne b).status = ids.foldl delk b.status := by
  intro ids
  induction ids with
  | nil => intro b; rfl
  | cons x t ih =>
    intro b
    show ((t.foldl clearOne (clearOne b x))).status = _
    rw [ih, clearOne_status]
    rfl

theorem nodup_keys_inj {β : Type} {m : List (String × β)}
    (hk : (m.map Prod.fst).Nodup) {p p' : String × β}
    (hp : p ∈ m) (hp' : p' ∈ m) (he : p.1 = p'.1) : p = p' := by
  induction m with
  | nil => simp at hp
  | cons q t ih =>
    rw [List.map_cons, List.nodup_cons] at hk
    rcases List.mem_cons.mp hp with h1 | h1 <;>
      rcases List.mem_cons.mp hp' with h2 | h2
    · rw [h1, h2]
    · exfalso
      apply hk.1
      have hm := List.mem_map_of_mem Prod.fst h2
      rwa [← he, h1] at hm
    · exfalso
      apply hk.1
      have hm := List.mem_map_of_mem Prod.fst h1
      rwa [he, h2] at hm
    · exact ih hk.2 h1 h2

theorem delk_eq_filter {β : Type} {m : List (String × β)}
    (hk : (m.map Prod.fst).Nodup) (x : String) :
    delk m x = m.filter (fun p => p.1 ≠ x) := by
  induction m with
  | nil => rfl
  | cons q t ih =>
    obtain ⟨a, b⟩ := q
    rw [List.map_cons, List.nodup_cons] at hk
    by_cases ha : a = x
    · simp only [delk, if_pos ha]
      rw [List.filter_cons, if_neg (by simp [ha])]
      symm
      apply List.filter_eq_self.mpr
      intro p hp
      simp only [decide_eq_true_eq]
      intro he
      apply hk.1
      have hm := List.mem_map_of_mem Prod.fst hp
      rwa [he, ← ha] at hm
    · simp only [delk, if_neg ha]
      rw [List.filter_cons, if_pos (by simpa using ha), ih hk.2]

theorem keys_filter_nodup {β : Type} {m : List (String × β)}
    (hk : (m.map Prod.fst).Nodup) (p : String × β → Bool) :
    ((m.filter p).map Prod.fst).Nodup := by
  have hsub : ((m.filter p).map Prod.fst).Sublist (m.map Prod.fst) :=
    (List.filter_sublist m).map Prod.fst
  exact hsub.nodup hk

theorem foldl_delk_eq_filter {β : Type} : ∀ (ids : List String)
    (m : List (String × β)), (m.map Prod.fst).Nodup →
    ids.foldl delk m = m.filter (fun p => ! ids.contains p.1) := by
  intro ids
  induction ids with
  | nil =>
    intro m hk
    simp
  | cons x t ih =>
    intro m hk
    show t.foldl delk (delk m x) = _
    have hkd : ((delk m x).map Prod.fst).Nodup := by
      rw [delk_eq_filter hk x]
      exact keys_filter_nodup hk _
    rw [ih _ hkd, delk_eq_filter hk x, List.filter_filter]
    apply List.filter_congr
    intro p hp
    simp only [List.contains_cons, Bool.not_or]
    by_cases he : p.1 = x <;> simp [he]

/-! Fixtures and specification-side definitions used by the claim
theorems. -/

/-- A sample descriptor for concrete runs. -/
def sampleBook : Book := ⟨"Title", none, none, 0, none, none⟩

/-- Terminal states as the specification glossary defines them: available,
error, cancelled and done. -/
def isTerminalSpec (st : QueueStatus) : Bool :=
  st = QueueStatus.available ∨ st = QueueStatus.error ∨
  st = QueueStatus.cancelled ∨ st = QueueStatus.done

/-- The filename claim C7 describes: sanitized title when title naming is
configured, otherwise the raw id, with an extension that defaults to
epub. -/
def claimFilename (useTitle : Bool) (title bookID : String)
    (format : Option String) : String :=
  (if useTitle = true then sanitizeFilename title else bookID) ++ "." ++
    (match format with | some f => f | none => "epub")

/-- The filename the code actually derives, described from the
specification side of the amended claim: base from the nonempty title when
configured, else the id; an extension only when a nonempty format is
supplied; the whole name sanitized afterwards. -/
def amendedFilename (useTitle : Bool) (title bookID : String)
    (format : Option String) : String :=
  match format with
  | some f =>
      if f = "" then
        sanitizeFilename (if useTitle = true ∧ title ≠ "" then title else bookID)
      else
        sanitizeFilename
          ((if useTitle = true ∧ title ≠ "" then title else bookID) ++ "." ++ f)
  | none =>
      sanitizeFilename (if useTitle = true ∧ title ≠ "" then title else bookID)

/-- Fixture response for the truncation claims: the server promises one
hundred thousand bytes and closes after two short reads. -/
def c4resp : HttpResp := ⟨200, -1, "application/epub", [100, 200]⟩

/-- Claim C8 (confirmed): the declared size parser maps 1024 B to 1024
bytes, 1 GB to two to the thirtieth, 3,5 MB with a comma decimal separator
to 3.5 times two to the twentieth, any unparseable string such as invalid
to zero. -/
theorem c8_size_parsing :
    parseSizeStringInt64 "1024 B" = 1024 ∧
    parseSizeStringInt64 "1 GB" = 2 ^ 30 ∧
    parseSizeStringInt64 "3,5 MB" = 3670016 ∧
    ((3670016 : ℚ) = (7 / 2) * 2 ^ 20) ∧
    parseSizeStringInt64 "invalid" = 0 ∧
    (∀ s, scanSizeFS (commaToDot (toUpperStr (trimSpaceStr s))) = none →
      parseSizeStringInt64 s = 0) := by
  refine ⟨by decide, by decide, by decide, by norm_num, by decide, ?_⟩
  intro s hs
  unfold parseSizeStringInt64
  rw [hs]

/-- Witness for claim C8 at the concrete unparseable input. -/
theorem c8_size_parsing_witness :
    scanSizeFS (commaToDot (toUpperStr (trimSpaceStr "invalid"))) = none ∧
    parseSizeStringInt64 "invalid" = 0 := by
  refine ⟨by decide, ?_⟩
  exact c8_size_parsing.2.2.2.2.2 "invalid" (by decide)

/-- Counterexample to claim C7: with title naming off and no format
supplied, the code derives the bare id with no epub extension, while the
claim prescribes the id with a default epub extension. -/
theorem c7_counterexample :
    deriveFilename false "Title" "book1" none = "book1" ∧
    claimFilename false "Title" "book1" none = "book1.epub" ∧
    deriveFilename false "Title" "book1" none ≠
      claimFilename false "Title" "book1" none := by decide

/-- Claim C7 (amended): the derived filename takes its base from the
nonempty title when title naming is configured and from the id otherwise,
appends the format extension only when a nonempty format is supplied (no
epub default), and sanitizes the entire name, so every character of the
result is in the allowed set. -/
theorem c7_filename_amended (u : Bool) (t i : String) (f : Option String) :
    deriveFilename u t i f = amendedFilename u t i f ∧
    (deriveFilename u t i f).toList.all allowedChar = true := by
  constructor
  · unfold deriveFilename amendedFilename
    cases f with
    | none => rfl
    | some g =>
      by_cases hg : g = ""
      · simp [hg]
      · simp [hg]
  · rw [List.all_eq_true]
    intro c hc
    exact sanitize_chars_allowed _ c hc

/-- Counterexample to claim C4: a truncated text/html response fails as a
plain incomplete download, not with the HTML-instead-of-binary
classification the claim prescribes. -/
theorem c4_counterexample :
    downloadURLFile "" ⟨200, 100000, "text/html", [1000]⟩ none =
      DlOutcome.incomplete 1000 100000 ∧
    DlOutcome.incomplete 1000 100000 ≠ DlOutcome.htmlContent ∧
    hasPrefixStr "text/html" "text/html" = true := by decide

/-- Claim C4 (amended): when the expected total is known and the bytes at
EOF fall short of ninety percent of it, the single-URL file download fails
with an incomplete-download error and never publishes the file, and the
outcome is the same whatever the content type of the response. -/
theorem c4_truncation_incomplete (size : String) (resp : HttpResp)
    (h200 : resp.statusCode = 200)
    (hT : 0 < effectiveTotal size resp)
    (htr : 10 * ((resp.chunks.sum : Nat) : Int) < 9 * effectiveTotal size resp) :
    downloadURLFile size resp none =
      DlOutcome.incomplete resp.chunks.sum (effectiveTotal size resp) ∧
    downloadURLFile size resp none ≠ DlOutcome.ok resp.chunks.sum ∧
    (∀ ct, downloadURLFile size { resp with contentType := ct } none =
      downloadURLFile size resp none) := by
  have hmain : downloadURLFile size resp none =
      DlOutcome.incomplete resp.chunks.sum (effectiveTotal size resp) := by
    unfold downloadURLFile
    rw [if_neg (by simp [h200])]
    rw [dlFileLoop_none]
    simp only [Nat.zero_add]
    rw [if_pos ⟨hT, htr⟩]
  refine ⟨hmain, ?_, ?_⟩
  · rw [hmain]
    simp
  · intro ct
    rfl

/-- Witness for claim C4: a download declared as one megabyte that serves
three hundred bytes is rejected as incomplete. -/
theorem c4_truncation_incomplete_witness :
    downloadURLFile "1 MB" c4resp none =
      DlOutcome.incomplete c4resp.chunks.sum (effectiveTotal "1 MB" c4resp) ∧
    downloadURLFile "1 MB" c4resp none ≠ DlOutcome.ok c4resp.chunks.sum ∧
    (∀ ct, downloadURLFile "1 MB" { c4resp with contentType := ct } none =
      downloadURLFile "1 MB" c4resp none) :=
  c4_truncation_incomplete "1 MB" c4resp (by decide) (by decide) (by decide)

/-- Registry holding one record that a worker completed as available. -/
def availState : BQ :=
  (run Sys.start [Op.add "a" sampleBook 0, Op.getNextOp,
    Op.markDownloading "a", Op.finishWorker "a" QueueStatus.available]).bq

/-- Registry holding one record that a worker completed as error. -/
def errState : BQ :=
  (run Sys.start [Op.add "a" sampleBook 0, Op.getNextOp,
    Op.markDownloading "a", Op.finishWorker "a" QueueStatus.error]).bq

/-- Counterexample to claim C3: the record of the id is in the terminal
state available, yet Add leaves the whole registry unchanged instead of
replacing the record. -/
theorem c3_counterexample :
    List.lookup "a" availState.status = some QueueStatus.available ∧
    isTerminalSpec QueueStatus.available = true ∧
    addOp availState "a" sampleBook 5 = availState := by decide

/-- Claim C3 (amended): for an id already present, Add replaces the record
exactly when its status is error, done or cancelled (resetting it to queued,
storing the descriptor with the new priority and pushing one new heap
entry); on queued, downloading and also on available it is a no-op. -/
theorem c3_add_semantics (s : BQ) (id : String) (bk : Book) (pri : Int)
    (st : QueueStatus) (hst : List.lookup id s.status = some st) :
    (isReplaceable st = true →
      List.lookup id (addOp s id bk pri).status = some QueueStatus.queued ∧
      List.lookup id (addOp s id bk pri).bookData =
        some { bk with priority := pri } ∧
      ((addOp s id bk pri).queue).Perm
        ((⟨id, pri, s.clock⟩ : QueueItem) :: s.queue)) ∧
    (isReplaceable st = false → addOp s id bk pri = s) := by
  constructor
  · intro hr
    unfold addOp
    rw [hst]
    dsimp only
    rw [hr]
    simp only [Bool.not_true]
    rw [if_neg (by simp)]
    unfold updateStatusInternal
    dsimp only
    refine ⟨lookup_upsert_self _ _ _, ?_, ?_⟩
    · exact lookup_upsert_self _ _ _
    · exact perm_heapPush _ _
  · intro hr
    unfold addOp
    rw [hst]
    dsimp only
    rw [hr]
    simp

/-- Witness for claim C3 at a record in the error state. -/
theorem c3_add_semantics_witness :
    (isReplaceable QueueStatus.error = true →
      List.lookup "a" (addOp errState "a" sampleBook 5).status =
        some QueueStatus.queued ∧
      List.lookup "a" (addOp errState "a" sampleBook 5).bookData =
        some { sampleBook with priority := 5 } ∧
      ((addOp errState "a" sampleBook 5).queue).Perm
        ((⟨"a", 5, errState.clock⟩ : QueueItem) :: errState.queue)) ∧
    (isReplaceable QueueStatus.error = false →
      addOp errState "a" sampleBook 5 = errState) :=
  c3_add_semantics errState "a" sampleBook 5 QueueStatus.error (by decide)

/-- Counterexample to claim C6: a record completed as available has
terminal status in the sense of the claim, yet ClearCompleted removes
nothing and leaves it behind. -/
theorem c6_counterexample :
    (clearCompleted availState).2 = 0 ∧
    List.lookup "a" ((clearCompleted availState).1).status =
      some QueueStatus.available ∧
    isTerminalSpec QueueStatus.available = true := by decide

/-- Claim C6 (amended): ClearCompleted removes exactly the records whose
status is done, error or cancelled and returns their number; afterwards no
record with one of those three statuses remains, while records in the
terminal state available survive. -/
theorem c6_clear_semantics (s : BQ) (hk : (s.status.map Prod.fst).Nodup) :
    ((clearCompleted s).1).status =
      s.status.filter (fun p => ! isReplaceable p.2) ∧
    (clearCompleted s).2 =
      (s.status.filter (fun p => isReplaceable p.2)).length ∧
    (∀ id st, List.lookup id ((clearCompleted s).1).status = some st →
      isReplaceable st = false) := by
  have hstat : ((clearCompleted s).1).status =
      s.status.filter (fun p => ! isReplaceable p.2) := by
    show ((((s.status.filter (fun p => isReplaceable p.2)).map
      Prod.fst).foldl clearOne s)).status = _
    rw [foldl_clearOne_status, foldl_delk_eq_filter _ _ hk]
    apply List.filter_congr
    intro p hp
    have hrw : ((s.status.filter (fun q => isReplaceable q.2)).map
        Prod.fst).contains p.1 = isReplaceable p.2 := by
      rcases Bool.eq_false_or_eq_true (isReplaceable p.2) with hrep | hrep
      · have hmem : p.1 ∈ (s.status.filter (fun q => isReplaceable q.2)).map
            Prod.fst :=
          List.mem_map_of_mem Prod.fst (List.mem_filter.mpr ⟨hp, hrep⟩)
        rw [hrep]
        exact List.elem_eq_true_of_mem hmem
      · rw [hrep]
        rcases Bool.eq_false_or_eq_true (((s.status.filter
          (fun q => isReplaceable q.2)).map Prod.fst).contains p.1) with h | h
        · exfalso
          have hm := List.mem_of_elem_eq_true h
          obtain ⟨p', hp', hpe⟩ := List.mem_map.mp hm
          have hpm' := List.mem_filter.mp hp'
          have hee : p' = p := nodup_keys_inj hk hpm'.1 hp hpe
          rw [hee] at hpm'
          rw [hpm'.2] at hrep
          simp at hrep
        · exact h
    rw [hrw]
  refine ⟨hstat, ?_, ?_⟩
  · show ((s.status.filter (fun p => isReplaceable p.2)).map
      Prod.fst).length = _
    rw [List.length_map]
  · intro id st hlook
    rw [hstat] at hlook
    have hm := lookup_mem hlook
    have := (List.mem_filter.mp hm).2
    revert this
    cases isReplaceable st <;> simp

/-- Registry holding a cancelled record and a queued record. -/
def mixedState : BQ :=
  (run Sys.start [Op.add "a" sampleBook 0, Op.add "b" sampleBook 1,
    Op.cancel "a"]).bq

/-- Witness for claim C6 on a registry with one cancelled and one queued
record. -/
theorem c6_clear_semantics_witness :
    ((clearCompleted mixedState).1).status =
      mixedState.status.filter (fun p => ! isReplaceable p.2) ∧
    (clearCompleted mixedState).2 =
      (mixedState.status.filter (fun p => isReplaceable p.2)).length ∧
    (∀ id st, List.lookup id ((clearCompleted mixedState).1).status =
      some st → isReplaceable st = false) :=
  c6_clear_semantics mixedState (by decide)

/-- Counterexample to claim C5: a nonempty queue state in which GetNext
dispatches nothing, because the only entry is marked cancelled. -/
theorem c5_counterexample :
    (run Sys.start [Op.add "a" sampleBook 0, Op.cancel "a"]).bq.queue ≠ [] ∧
    (getNext (run Sys.start [Op.add "a" sampleBook 0,
      Op.cancel "a"]).bq).2 = none := by decide

/-- Claim C5 (amended): on any queue state satisfying the min-heap
invariant and containing at least one entry not marked cancelled, GetNext
dispatches such an entry, and no entry not marked cancelled strictly
precedes it in the order of priority ascending then insertion time
ascending. -/
theorem c5_dispatch_minimal (s : BQ) (hh : heapProp s.queue)
    (hex : ∃ e ∈ s.queue,
      List.lookup e.bookID s.status ≠ some QueueStatus.cancelled) :
    ∃ id ch, (getNext s).2 = some (id, ch) ∧
      ∃ it ∈ s.queue, it.bookID = id ∧
        List.lookup id s.status ≠ some QueueStatus.cancelled ∧
        ∀ e ∈ s.queue,
          List.lookup e.bookID s.status ≠ some QueueStatus.cancelled →
          pqLess e it = false := by
  obtain ⟨specA, specB⟩ := getNextLoop_spec s.queue.length s.status s.queue
    (Nat.le_refl _) hh
  obtain ⟨it, q2, heq⟩ := specB hex
  obtain ⟨hmem, hnc, hmin⟩ := specA it q2 heq
  refine ⟨it.bookID, s.nextChan, ?_, it, hmem, rfl, hnc, hmin⟩
  unfold getNext
  rw [heq]

/-- Queue state with three queued ids of priorities ten, one and five. -/
def triState : BQ :=
  (run Sys.start [Op.add "a" sampleBook 10, Op.add "b" sampleBook 1,
    Op.add "c" sampleBook 5]).bq

/-- Witness for claim C5 on the three-priority scenario. -/
theorem c5_dispatch_minimal_witness :
    ∃ id ch, (getNext triState).2 = some (id, ch) ∧
      ∃ it ∈ triState.queue, it.bookID = id ∧
        List.lookup id triState.status ≠ some QueueStatus.cancelled ∧
        ∀ e ∈ triState.queue,
          List.lookup e.bookID triState.status ≠ some QueueStatus.cancelled →
          pqLess e it = false :=
  c5_dispatch_minimal triState (by decide) (by decide)

/-- Registry with one dispatched id marked downloading. -/
def dlState : BQ :=
  (run Sys.start [Op.add "a" sampleBook 0, Op.getNextOp,
    Op.markDownloading "a"]).bq

/-- Counterexample to claim C9: a download whose declared size of one byte
is exceeded by the first chunk reports a progress of one hundred thousand,
and UpdateProgress records that value unclamped, far above one hundred. -/
theorem c9_counterexample :
    parseSizeStringInt64 "1 B" = 1 ∧
    progressReports 1 [1000] 0 = [100000] ∧
    ¬ ((100000 : ℚ) ≤ 100) ∧
    (List.lookup "a" (updateProgressOp dlState "a" 100000).bookData).map
      Book.progress = some (some 100000) := by
  refine ⟨by decide, ?_, by decide, by decide⟩
  norm_num [progressReports]

/-- Claim C9 (amended): every reported progress value is nonnegative, and
is at most one hundred whenever the bytes actually served do not exceed the
known expected total; when the server serves more than the declared total
the recorded value exceeds one hundred. -/
theorem c9_progress_bounds (total : Int) (chunks : List Nat) (v : ℚ)
    (hv : v ∈ progressReports total chunks 0) :
    0 ≤ v ∧ ((chunks.sum : Int) ≤ total → v ≤ 100) := by
  obtain ⟨ht, k, hk, hkv⟩ := progressReports_mem total chunks 0 v hv
  have htq : (0 : ℚ) < (total : ℚ) := by exact_mod_cast ht
  constructor
  · rw [hkv]
    positivity
  · intro hsum
    rw [hkv]
    rw [div_le_iff htq]
    have hkt : (k : ℚ) ≤ (total : ℚ) := by
      have h1 : (k : Int) ≤ (chunks.sum : Int) := by
        simp only [Nat.zero_add] at hk
        exact_mod_cast hk
      have h2 : (k : Int) ≤ total := le_trans h1 hsum
      exact_mod_cast h2
    nlinarith

/-- Witness for claim C9: half the declared bytes report fifty percent. -/
theorem c9_progress_bounds_witness :
    (50 : ℚ) ∈ progressReports 100 [50] 0 ∧
    0 ≤ (50 : ℚ) ∧ (50 : ℚ) ≤ 100 := by
  have hm : (50 : ℚ) ∈ progressReports 100 [50] 0 := by
    norm_num [progressReports]
  exact ⟨hm, (c9_progress_bounds 100 [50] 50 hm).1,
    (c9_progress_bounds 100 [50] 50 hm).2 (by decide)⟩

/-- Claim C10 (confirmed): ReorderQueue always returns true; the resulting
heap is a permutation of the old entries with the priority of every entry
named in the map rewritten and every other entry untouched (so nothing is
added or removed), and it satisfies the min-heap ordering. -/
theorem c10_reorder_semantics (s : BQ) (m : List (String × Int)) :
    (reorderQueue s m).2 = true ∧
    ((reorderQueue s m).1).queue.Perm (s.queue.map (reorderEntry m)) ∧
    ((reorderQueue s m).1).queue.length = s.queue.length ∧
    (∀ it ∈ s.queue, List.lookup it.bookID m = none →
      it ∈ ((reorderQueue s m).1).queue) ∧
    (∀ it ∈ s.queue, ∀ p, List.lookup it.bookID m = some p →
      { it with priority := p } ∈ ((reorderQueue s m).1).queue) ∧
    heapProp ((reorderQueue s m).1).queue := by
  have hq : ((reorderQueue s m).1).queue =
      heapInit (s.queue.map (reorderEntry m)) := rfl
  have hperm : ((reorderQueue s m).1).queue.Perm
      (s.queue.map (reorderEntry m)) := by
    rw [hq]
    exact perm_heapInit _
  refine ⟨rfl, hperm, ?_, ?_, ?_, ?_⟩
  · rw [hperm.length_eq, List.length_map]
  · intro it hit hnone
    apply hperm.mem_iff.mpr
    have he : reorderEntry m it = it := by
      unfold reorderEntry
      rw [hnone]
    rw [← he]
    exact List.mem_map_of_mem _ hit
  · intro it hit p hsome
    apply hperm.mem_iff.mpr
    have he : reorderEntry m it = { it with priority := p } := by
      unfold reorderEntry
      rw [hsome]
    rw [← he]
    exact List.mem_map_of_mem _ hit
  · rw [hq]
    exact heapInit_heapProp _

/-- Queue with ids a and b at priorities ten and twenty. -/
def twoState : BQ :=
  (run Sys.start [Op.add "a" sampleBook 10, Op.add "b" sampleBook 20]).bq

/-- Witness for claim C10: reordering a to five and b to one keeps both
entries, rewrites both priorities and re-establishes the heap. -/
theorem c10_reorder_semantics_witness :
    (reorderQueue twoState [("a", 5), ("b", 1)]).2 = true ∧
    ((⟨"a", 10, 0⟩ : QueueItem).bookID = "a" ∧
      ({(⟨"a", 10, 0⟩ : QueueItem) with priority := 5} ∈
        ((reorderQueue twoState [("a", 5), ("b", 1)]).1).queue)) ∧
    heapProp ((reorderQueue twoState [("a", 5), ("b", 1)]).1).queue := by
  refine ⟨(c10_reorder_semantics twoState [("a", 5), ("b", 1)]).1,
    ⟨rfl, ?_⟩, (c10_reorder_semantics twoState [("a", 5), ("b", 1)]).2.2.2.2.2⟩
  exact (c10_reorder_semantics twoState [("a", 5), ("b", 1)]).2.2.2.2.1
    ⟨"a", 10, 0⟩ (by decide) 5 (by decide)

/-- Counterexample to claim C1: a queued id is cancelled, Cancel returns
true, yet after ClearCompleted (which deletes the status map entry but
leaves the stale heap entry), GetNext dispatches the id and the worker
marks it downloading. -/
theorem c1_counterexample :
    List.lookup "a" (run Sys.start [Op.add "a" sampleBook 0]).bq.status
      = some QueueStatus.queued ∧
    (cancelDownload (run Sys.start [Op.add "a" sampleBook 0]).bq "a").2 = true ∧
    List.lookup "a" (run
      ⟨(cancelDownload (run Sys.start [Op.add "a" sampleBook 0]).bq "a").1,
        (run Sys.start [Op.add "a" sampleBook 0]).workers⟩
      [Op.clearOp, Op.getNextOp, Op.markDownloading "a"]).bq.status
      = some QueueStatus.downloading := by
  decide

/-- Claim C1 (amended): after Cancel of a queued id returns true, the id
never attains status downloading under any following sequence of registry
calls that contains no Add of that id and no ClearCompleted, provided no
worker already holds the id at the moment of the cancel. -/
theorem c1_cancel_queued_never_downloading (s : Sys) (id : String)
    (hq : List.lookup id s.bq.status = some QueueStatus.queued)
    (hw : ∀ w ∈ s.workers, w.1 ≠ id)
    (ops : List Op) (hops : ∀ op ∈ ops, c1allowed id op = true) :
    (cancelDownload s.bq id).2 = true ∧
    List.lookup id
      (run ⟨(cancelDownload s.bq id).1, s.workers⟩ ops).bq.status
      ≠ some QueueStatus.downloading := by
  have hc : cancelDownload s.bq id =
      (updateStatusInternal s.bq id QueueStatus.cancelled, true) := by
    unfold cancelDownload
    rw [hq]
    dsimp only
    rw [if_neg (by decide), if_pos rfl]
  refine ⟨by rw [hc], ?_⟩
  have hinv : C1Inv ⟨(cancelDownload s.bq id).1, s.workers⟩ id := by
    constructor
    · show List.lookup id ((cancelDownload s.bq id).1).status = _
      rw [hc]
      show List.lookup id (upsert s.bq.status id QueueStatus.cancelled) = _
      exact lookup_upsert_self _ _ _
    · exact hw
  have hrun := c1inv_run hinv ops hops
  rw [hrun.1]
  decide

/-- Witness for claim C1: cancel a freshly added id and run a dispatch
attempt plus a stray worker write; the id never shows downloading. -/
theorem c1_cancel_queued_never_downloading_witness :
    (cancelDownload (run Sys.start [Op.add "a" sampleBook 0]).bq "a").2
      = true ∧
    List.lookup "a" (run
      ⟨(cancelDownload (run Sys.start [Op.add "a" sampleBook 0]).bq "a").1,
        (run Sys.start [Op.add "a" sampleBook 0]).workers⟩
      [Op.getNextOp, Op.finishWorker "a" QueueStatus.error]).bq.status
      ≠ some QueueStatus.downloading :=
  c1_cancel_queued_never_downloading
    (run Sys.start [Op.add "a" sampleBook 0]) "a" (by decide) (by decide)
    [Op.getNextOp, Op.finishWorker "a" QueueStatus.error] (by decide)

/-- Counterexample to claim C2: right after GetNext dispatches an id, a
cancel handle exists while the status is still queued, not downloading
(processDownload only writes downloading afterwards). -/
theorem c2_counterexample :
    (List.lookup "a"
      (run Sys.start [Op.add "a" sampleBook 0, Op.getNextOp]).bq.cancelFlags
      ).isSome = true ∧
    List.lookup "a"
      (run Sys.start [Op.add "a" sampleBook 0, Op.getNextOp]).bq.status
      = some QueueStatus.queued ∧
    QueueStatus.queued ≠ QueueStatus.downloading := by
  decide

/-- Claim C2 (amended): in every reachable registry state, any id holding a
cancel handle is marked active (not necessarily downloading), every close
event occurs at most once and no held handle was ever closed, and an
UpdateStatus of an id to a terminal status discards that id's handle. -/
theorem c2_handle_invariant (ops : List Op) :
    (∀ id, (List.lookup id (run Sys.start ops).bq.cancelFlags).isSome = true →
      id ∈ (run Sys.start ops).bq.activeDownloads) ∧
    (run Sys.start ops).bq.closed.Nodup ∧
    (∀ p ∈ (run Sys.start ops).bq.cancelFlags,
      p.2 ∉ (run Sys.start ops).bq.closed) ∧
    (∀ id st, isFinished st = true →
      List.lookup id
        (updateStatus (run Sys.start ops).bq id st).cancelFlags = none) := by
  obtain ⟨hk, hv, hcl, hmem, hb⟩ := flagInv_run ops
  refine ⟨?_, hcl, ?_, ?_⟩
  · intro id hs
    obtain ⟨ch, hch⟩ := Option.isSome_iff_exists.mp hs
    exact (hmem _ (lookup_mem hch)).2.2
  · intro p hp
    exact (hmem p hp).1
  · intro id st hf
    exact updateStatus_flags_none hk id st hf

/-- Witness for claim C2 on the dispatched-id state: the handle-holding id
is active, and marking it error discards the handle. -/
theorem c2_handle_invariant_witness :
    "a" ∈ (run Sys.start [Op.add "a" sampleBook 0, Op.getNextOp]
      ).bq.activeDownloads ∧
    List.lookup "a" (updateStatus
      (run Sys.start [Op.add "a" sampleBook 0, Op.getNextOp]).bq "a"
      QueueStatus.error).cancelFlags = none :=
  ⟨(c2_handle_invariant [Op.add "a" sampleBook 0, Op.getNextOp]).1 "a"
      (by decide),
    (c2_handle_invariant [Op.add "a" sampleBook 0, Op.getNextOp]).2.2.2 "a"
      QueueStatus.error (by decide)⟩

end CWBD
